import Mathlib

/-!
ARGweaver, `src/argweaver/sequences.h` and `src/argweaver/thread.h`: a shallow
embedding of the sequence containers `BaseProbs`, `Sequences`, `Sites` and
`SitesMapping` and of the removal-path table `RemovalPaths`, followed by the
properties proved about them.

Conventions of the embedding:

* C++ `int` values are `Int`. Arguments, fields and vector entries are taken
  to be values of `int`. Where a computed value can leave the range of `int`
  (the arithmetic of `uncompress_blocks`) it wraps around modulo `2^32`, as
  `wrapInt` says.
* `double` values are elements of a linearly ordered field `K`.
* `vector<T>` is `List T`; a `char*` buffer is the `List Char` of its characters.
* A run that stops in `assert`, or that touches a vector outside its bounds,
  yields `Except.error` with the corresponding `Fault`. Messages written by
  `printError` are not part of the state.
* Functions and tables declared outside `sequences.h` (`dna2int`, `split`,
  `atof`, `pow`) are parameters of the definitions that use them.
* The helper `new_matrix` of `common.h`, which is not among the sources, is
  modelled from the specification; its definition says so.
-/

namespace Argweaver

/-- Ways in which a run of the C++ code stops without a result. -/
inductive Fault where
  /-- An `assert(...)` failed: the process aborts. -/
  | assertion
  /-- An array or vector was accessed outside its bounds. -/
  | outOfBounds
  /-- A vector was requested with a negative size: an exception is thrown. -/
  | allocation
  deriving DecidableEq, Repr

deriving instance DecidableEq for Except

/-- The value of an `int` computation whose exact result is `x`: the result
wraps around modulo `2^32` into the range `-2^31 .. 2^31 - 1` of `int`. -/
def wrapInt (x : Int) : Int :=
  (x + 2147483648) % 4294967296 - 2147483648

/-- Read of `v[i]` for a `vector<int>` and an `int` index. -/
def vecGet (v : List Int) (i : Int) : Except Fault Int :=
  if i < 0 then .error .outOfBounds
  else match v[i.toNat]? with
    | some x => .ok x
    | none => .error .outOfBounds

/-- Read of `m[r][c]` in a vector (or array) of rows, with `int` indices. -/
def cellGet {α : Type} (m : List (List α)) (r c : Int) : Except Fault α :=
  if r < 0 ∨ c < 0 then .error .outOfBounds
  else match m[r.toNat]? with
    | none => .error .outOfBounds
    | some row =>
      match row[c.toNat]? with
      | none => .error .outOfBounds
      | some x => .ok x

/-- The content of cell `(r, c)` of a vector of rows, when there is such a
cell. -/
def cellAt {α : Type} (m : List (List α)) (r c : Nat) : Option α :=
  match m[r]? with
  | none => none
  | some row => row[c]?

/-- The assignment `m[r][c] = x` in a vector (or array) of rows, with `int`
indices. -/
def cellSet {α : Type} (m : List (List α)) (r c : Int) (x : α) :
    Except Fault (List (List α)) :=
  if r < 0 ∨ c < 0 then .error .outOfBounds
  else match m[r.toNat]? with
    | none => .error .outOfBounds
    | some row =>
      if c.toNat < row.length then .ok (m.set r.toNat (row.set c.toNat x))
      else .error .outOfBounds

/-- The three statements `tmp = m[seq1][coord]; m[seq1][coord] = m[seq2][coord];
m[seq2][coord] = tmp;` of `switch_alleles`. -/
def swapCells {α : Type} (m : List (List α)) (coord seq1 seq2 : Int) :
    Except Fault (List (List α)) :=
  match cellGet m seq1 coord with
  | .error e => .error e
  | .ok tmp =>
    match cellGet m seq2 coord with
    | .error e => .error e
    | .ok x =>
      match cellSet m seq1 coord x with
      | .error e => .error e
      | .ok m1 => cellSet m1 seq2 coord tmp

/-! ## SitesMapping -/

/-- The class `SitesMapping`: mapping of sites between a compressed and an
uncompressed alignment. -/
structure SitesMapping where
  old_start : Int
  old_end : Int
  new_start : Int
  new_end : Int
  nsites : Int
  seqlen : Int
  /-- the original position of each variant site -/
  old_sites : List Int
  /-- the new position of each variant site -/
  new_sites : List Int
  /-- the original position of each site -/
  all_sites : List Int
  deriving DecidableEq, Repr

namespace SitesMapping

/-- The loop of `compress`. The list is the part of `all_sites` not yet visited,
`all_sites[pos2], ..., all_sites[n-1]`; it is empty exactly when the loop test
`pos2 < n` fails, and then `n - 1` is returned. -/
def compressLoop (pos round_dir : Int) (n : Nat) : List Int → Nat → Int
  | [], _ => (n : Int) - 1
  | x :: rest, pos2 =>
    if x ≥ pos then
      if round_dir ≥ 0 ∨ pos2 = 0 ∨ x = pos then (pos2 : Int)
      else (pos2 : Int) - 1
    else compressLoop pos round_dir n rest (pos2 + 1)

/-- `SitesMapping::compress(pos, round_dir, start)`. A negative `start` makes
the first iteration read `all_sites[start]` outside the vector. -/
def compress (m : SitesMapping) (pos round_dir start : Int) : Except Fault Int :=
  if start < 0 then .error .outOfBounds
  else .ok (compressLoop pos round_dir m.all_sites.length
    (m.all_sites.drop start.toNat) start.toNat)

/-- `SitesMapping::uncompress(pos)`: `all_sites[pos]`. -/
def uncompress (m : SitesMapping) (pos : Int) : Except Fault Int :=
  vecGet m.all_sites pos

/-- The scan `for (; cur2 < new_seqlen && all_sites[cur2] < end; cur2++) {}` of
`compress_blocks`; the result is the final `cur2`. The list is the part of
`all_sites` from index `cur2` on, so an empty list while `cur2 < new_seqlen`
means that `all_sites[cur2]` is read past the end of the vector. -/
def skipSites (new_seqlen end_ : Int) : List Int → Int → Except Fault Int
  | [], cur2 => if cur2 < new_seqlen then .error .outOfBounds else .ok cur2
  | x :: rest, cur2 =>
    if cur2 < new_seqlen ∧ x < end_ then skipSites new_seqlen end_ rest (cur2 + 1)
    else .ok cur2

/-- The scan of `compress_blocks` started at `cur2 = cur`. A negative `cur`
below `new_seqlen` reads `all_sites[cur]` before the start of the vector. -/
def skipFrom (m : SitesMapping) (new_seqlen end_ cur : Int) : Except Fault Int :=
  if cur < 0 then
    if cur < new_seqlen then .error .outOfBounds else .ok cur
  else skipSites new_seqlen end_ (m.all_sites.drop cur.toNat) cur

/-- The loop over `blocks` of `compress_blocks`, with the local variables
`cur` and `end` and the output vector `blocks2` as state. -/
def compressBlocksLoop (m : SitesMapping) :
    List Int → Int → Int → List Int → Except Fault (List Int)
  | [], _, _, blocks2 => .ok blocks2
  | b :: bs, cur, end_, blocks2 =>
    if end_ + b < m.old_end then
      match skipFrom m (m.new_end - m.new_start) (end_ + b) cur with
      | .error e => .error e
      | .ok cur2 => compressBlocksLoop m bs cur2 (end_ + b) (blocks2 ++ [cur2 - cur])
    else
      -- last block case
      compressBlocksLoop m bs cur (end_ + b) (blocks2 ++ [m.new_end - cur])

/-- `SitesMapping::compress_blocks(blocks, blocks2)`: compress a series of
block lengths. The result is the final content of `blocks2`. -/
def compress_blocks (m : SitesMapping) (blocks blocks2 : List Int) :
    Except Fault (List Int) :=
  compressBlocksLoop m blocks m.new_start m.old_start blocks2

/-- The block end `cur2 = (all_sites[end-1] + 1 + all_sites[end]) / 2` of
`uncompress_blocks`, for `lo = all_sites[end-1]` and `hi = all_sites[end]`: both
additions are `int` additions and the division of two `int`s truncates towards
zero. -/
def blockEnd (lo hi : Int) : Int :=
  Int.tdiv (wrapInt (wrapInt (lo + 1) + hi)) 2

/-- The loop over `blocks` of `uncompress_blocks`, with the local variables
`cur` and `end` and the output vector `blocks2` as state. All arithmetic is
`int` arithmetic. -/
def uncompressBlocksLoop (m : SitesMapping) :
    List Int → Int → Int → List Int → Except Fault (List Int)
  | [], _, _, blocks2 => .ok blocks2
  | b :: bs, cur, end_, blocks2 =>
    if wrapInt (end_ + b) < m.new_end then
      -- use median for placing block ends
      match vecGet m.all_sites (wrapInt (wrapInt (end_ + b) - 1)),
          vecGet m.all_sites (wrapInt (end_ + b)) with
      | .ok lo, .ok hi =>
        if blockEnd lo hi > cur then
          uncompressBlocksLoop m bs (blockEnd lo hi) (wrapInt (end_ + b))
            (blocks2 ++ [wrapInt (blockEnd lo hi - cur)])
        else .error .assertion
      | .error e, _ => .error e
      | _, .error e => .error e
    else
      -- last block case
      uncompressBlocksLoop m bs cur (wrapInt (end_ + b))
        (blocks2 ++ [wrapInt (m.old_end - cur)])

/-- `SitesMapping::uncompress_blocks(blocks, blocks2)`: uncompress a series of
block lengths. The result is the final content of `blocks2`; the run aborts
when `assert(cur2 > cur)` fails. -/
def uncompress_blocks (m : SitesMapping) (blocks blocks2 : List Int) :
    Except Fault (List Int) :=
  uncompressBlocksLoop m blocks m.old_start m.new_start blocks2

end SitesMapping

/-- A mapping whose only content is its `all_sites` vector. -/
def sitesOnly (all_sites : List Int) : SitesMapping :=
  ⟨0, 0, 0, 0, 0, 0, [], [], all_sites⟩

/-! ## BaseProbs

The number type `K` stands for `double`. The table `dna2int` (of `seq.h`) and
the library functions `split`, `atof` and `pow` are parameters. -/

/-- The class `BaseProbs`: `double prob[4]`, one entry per base. -/
structure BaseProbs (K : Type) where
  prob : Fin 4 → K

namespace BaseProbs

variable {K : Type} [LinearOrderedField K]

/-- `BaseProbs::BaseProbs(char c)`. -/
def ofChar (dna2int : Char → Int) (c : Char) : BaseProbs K :=
  if h : dna2int c < 0 ∨ dna2int c ≥ 4 then ⟨fun _ => 1⟩
  else ⟨Function.update (fun _ => 0) ⟨(dna2int c).toNat, by omega⟩ 1⟩

/-- The statement `prob[i] += x` for an `int` index `i`. -/
def addAt (prob : Fin 4 → K) (i : Int) (x : K) : Except Fault (Fin 4 → K) :=
  if h : 0 ≤ i ∧ i < 4 then
    .ok (Function.update prob ⟨i.toNat, by omega⟩ (prob ⟨i.toNat, by omega⟩ + x))
  else .error .outOfBounds

/-- The weight `pow(10, -atof(s)/10.0)` of one PL score string. -/
def plWeight (atof : String → K) (pow : K → K → K) (s : String) : K :=
  pow 10 (-(atof s) / 10.0)

/-- `BaseProbs::BaseProbs(refAllele, altAllele, pl, hap_id)`: `pl` is the
normalized phred-like score for the genotypes REF/REF, REF/ALT, ALT/ALT. -/
def ofPL (dna2int : Char → Int) (split : String → String → List String)
    (atof : String → K) (pow : K → K → K)
    (refAllele altAllele : Char) (pl : String) (hap_id : Int) :
    Except Fault (BaseProbs K) :=
  if pl = "." then .ok ⟨fun _ => 1⟩
  else
    match split pl "," with
    | [s0, s1, s2] =>
      let sum : K := 0.0 + plWeight atof pow s0 + plWeight atof pow s1 + plWeight atof pow s2
      if dna2int refAllele ≥ 0 ∧ dna2int altAllele ≥ 0 then
        match addAt (fun _ => 0.0) (dna2int refAllele) (plWeight atof pow s0 / sum) with
        | .error e => .error e
        | .ok p1 =>
          match addAt p1 (dna2int altAllele) (plWeight atof pow s2 / sum) with
          | .error e => .error e
          | .ok p2 =>
            match addAt p2 (if hap_id = 0 then dna2int refAllele else dna2int altAllele)
                (plWeight atof pow s1 / sum) with
            | .error e => .error e
            | .ok p3 => .ok ⟨p3⟩
      else .error .assertion
    | _ =>
      -- pl_score_strings.size() != 3: printError, assert(0)
      .error .assertion

/-- `BaseProbs::set_mask`. -/
def set_mask (_bp : BaseProbs K) : BaseProbs K :=
  ⟨fun _ => 1.0⟩

/-- `BaseProbs::is_masked`. -/
def is_masked (bp : BaseProbs K) : Bool :=
  (List.finRange 4).all (fun i => ! decide (bp.prob i < 0.99))

/-- The loop of `is_certain` over the remaining indices, with `numPossible` as
state; `none` is the early `return false`. -/
def countPossible (bp : BaseProbs K) (tol : K) : List (Fin 4) → Nat → Option Nat
  | [], numPossible => some numPossible
  | i :: rest, numPossible =>
    if bp.prob i > tol then
      if numPossible + 1 > 1 then none
      else countPossible bp tol rest (numPossible + 1)
    else countPossible bp tol rest numPossible

/-- `BaseProbs::is_certain(tol)`; the default of `tol` is `1e-8`. -/
def is_certain (bp : BaseProbs K) (tol : K) : Except Fault Bool :=
  match countPossible bp tol (List.finRange 4) 0 with
  | none => .ok false
  | some numPossible =>
    if numPossible = 0 then .error .assertion
    else .ok true

end BaseProbs

/-- A table in the role of `dna2int`, mapping `A`, `C`, `G`, `T` to `0..3` and
every other character to `-1`; used to evaluate the code on concrete inputs. -/
def dnaCode (c : Char) : Int :=
  if c = 'A' then 0 else if c = 'C' then 1 else if c = 'G' then 2
  else if c = 'T' then 3 else -1

/-! ## Sites -/

/-- The class `Sites`: the variant columns of an alignment. A column `char*`
is the list of the characters it holds. -/
structure Sites (K : Type) where
  chrom : String
  start_coord : Int
  end_coord : Int
  names : List String
  positions : List Int
  cols : List (List Char)
  base_probs : List (List (BaseProbs K))

namespace Sites

variable {K : Type}

/-- `Sites::get_num_seqs`. -/
def get_num_seqs (s : Sites K) : Nat :=
  s.names.length

/-- The loop `for ( ; j < len; j++) if (col[j] != 'N') break;` of `is_snp`; the
result is the final `j`. The first argument is `len - j`, the number of
iterations left. -/
def skipN (col : List Char) : Nat → Nat → Except Fault Nat
  | 0, j => .ok j
  | left + 1, j =>
    match col[j]? with
    | none => .error .outOfBounds
    | some c => if c ≠ 'N' then .ok j else skipN col left (j + 1)

/-- The loop `for (k = j+1; k < len; k++)` of `is_snp`, followed by the final
`return false`. The first numeric argument is the number of iterations left. -/
def differsFrom (col : List Char) (j : Nat) : Nat → Nat → Except Fault Bool
  | 0, _ => .ok false
  | left + 1, k =>
    match col[k]?, col[j]? with
    | some ck, some cj =>
      if ck ≠ 'N' ∧ ck ≠ cj then .ok true else differsFrom col j left (k + 1)
    | _, _ => .error .outOfBounds

/-- `Sites::is_snp(i)`. -/
def is_snp (s : Sites K) (i : Int) : Except Fault Bool :=
  if i < 0 ∨ i ≥ s.cols.length then .ok false
  else
    match s.cols[i.toNat]? with
    | none => .error .outOfBounds
    | some col =>
      match skipN col s.get_num_seqs 0 with
      | .error e => .error e
      | .ok j =>
        if (j : Int) = (s.get_num_seqs : Int) - 1 then .ok false
        else differsFrom col j (s.get_num_seqs - (j + 1)) (j + 1)

end Sites

/-! ## Sequences -/

/-- The class `Sequences`: the alignment of sequences. A sequence `char*` is
the list of the characters it holds. -/
structure Sequences (K : Type) where
  seqs : List (List Char)
  names : List String
  /-- index of diploid pair partner -/
  pairs : List Int
  /-- true if snp w frequency > 1 -/
  non_singleton_snp : List Bool
  /-- set to non-zero for ancient samples -/
  ages : List Int
  real_ages : List K
  base_probs : List (List (BaseProbs K))
  seqlen : Int
  owned : Bool

namespace Sequences

variable {K : Type}

/-- `Sequences::get_num_seqs`. -/
def get_num_seqs (s : Sequences K) : Int :=
  s.seqs.length

/-- `Sequences::length`. -/
def length (s : Sequences K) : Int :=
  s.seqlen

/-- The `push_back`s at the end of `append`. -/
def pushSeq (s : Sequences K) (name : String) (seq : List Char)
    (bp : List (BaseProbs K)) : Sequences K :=
  { s with
    seqs := s.seqs ++ [seq]
    base_probs := if bp.length > 0 then s.base_probs ++ [bp] else s.base_probs
    names := s.names ++ [name]
    pairs := if s.pairs.length > 0 then s.pairs ++ [-1] else s.pairs }

/-- The part of `append` after the sequence length check: the assertions on
`bp`, then the `push_back`s and `return true`. -/
def appendChecked (s : Sequences K) (name : String) (seq : List Char)
    (bp : List (BaseProbs K)) : Except Fault (Bool × Sequences K) :=
  if s.seqs.length > 0 then
    if s.base_probs.length > 0 then
      if bp.length > 0 then .ok (true, pushSeq s name seq bp) else .error .assertion
    else
      if bp.length = 0 then .ok (true, pushSeq s name seq bp) else .error .assertion
  else .ok (true, pushSeq s name seq bp)

/-- `Sequences::append(name, seq, bp, new_seqlen)`: the returned flag and the
state of the object afterwards. -/
def append (s : Sequences K) (name : String) (seq : List Char)
    (bp : List (BaseProbs K)) (new_seqlen : Int) : Except Fault (Bool × Sequences K) :=
  -- check sequence length
  if new_seqlen > 0 then
    if s.seqs.length > 0 then
      if new_seqlen ≠ s.seqlen then .ok (false, s)
      else appendChecked s name seq bp
    else appendChecked { s with seqlen := new_seqlen } name seq bp
  else appendChecked s name seq bp

/-- The loop `for (i=0; i<nseqs; i++) append(names[i], &seqs[i][offset],
vector<BaseProbs>())` of the subset constructor. The first numeric argument is
the number of iterations left, the second is `i`. The pointer
`&seqs[i][offset]` is the part of sequence `i` from `offset` on. -/
def appendFrom (src : Sequences K) (offset : Int) :
    Nat → Nat → Sequences K → Except Fault (Sequences K)
  | 0, _, s => .ok s
  | left + 1, i, s =>
    match src.names[i]?, src.seqs[i]? with
    | some name, some seq =>
      if offset < 0 ∨ offset > seq.length then .error .outOfBounds
      else
        match s.append name (seq.drop offset.toNat) [] (-1) with
        | .error e => .error e
        | .ok (_, s2) => appendFrom src offset left (i + 1) s2
    | _, _ => .error .outOfBounds

/-- The loop `for (i = 0; i < nseqs; i++) pairs[i] = sequences->pairs[i]` of the
subset constructor. The first numeric argument is the number of iterations
left, the second is `i`. -/
def copyPairsLoop (srcPairs : List Int) : Nat → Nat → List Int → Except Fault (List Int)
  | 0, _, pairs => .ok pairs
  | left + 1, i, pairs =>
    match srcPairs[i]? with
    | none => .error .outOfBounds
    | some p =>
      if i < pairs.length then copyPairsLoop srcPairs left (i + 1) (pairs.set i p)
      else .error .outOfBounds

/-- The statements `pairs = vector<int>(nseqs)` and the copy loop after it. -/
def copyPairs (srcPairs : List Int) (nseqs : Int) : Except Fault (List Int) :=
  if nseqs < 0 then .error .allocation
  else copyPairsLoop srcPairs nseqs.toNat 0 (List.replicate nseqs.toNat 0)

/-- The loop `for (i=0; i < (int)base_probs.size(); i++)
base_probs.push_back(sequences->base_probs[i])` of the subset constructor. The
bound is the size of the vector being filled. The first list is the part of
`sequences->base_probs` from index `i` on; when it is used up while the loop
test still holds, `sequences->base_probs[i]` is read past the end. -/
def copyBaseProbsLoop :
    List (List (BaseProbs K)) → Nat → List (List (BaseProbs K)) →
      Except Fault (List (List (BaseProbs K)))
  | [], i, base_probs =>
    if i < base_probs.length then .error .outOfBounds else .ok base_probs
  | bp :: rest, i, base_probs =>
    if i < base_probs.length then copyBaseProbsLoop rest (i + 1) (base_probs ++ [bp])
    else .ok base_probs

/-- The constructor `Sequences(const Sequences *sequences, int nseqs=-1,
int _seqlen=-1, int offset=0)`: initialize from a subset of another `Sequences`
alignment. -/
def ofSubset (src : Sequences K) (nseqs _seqlen offset : Int) :
    Except Fault (Sequences K) :=
  -- use same nseqs and/or seqlen by default
  let nseqs := if nseqs = -1 then src.get_num_seqs else nseqs
  let seqlen := if _seqlen = -1 then src.length else _seqlen
  match appendFrom src offset nseqs.toNat 0 ⟨[], [], [], [], [], [], [], seqlen, false⟩ with
  | .error e => .error e
  | .ok s1 =>
    match (if src.pairs.length > 0 then copyPairs src.pairs nseqs else .ok s1.pairs) with
    | .error e => .error e
    | .ok pairs =>
      if src.base_probs.length > 0 then
        match copyBaseProbsLoop src.base_probs 0 s1.base_probs with
        | .error e => .error e
        | .ok base_probs =>
          .ok { s1 with pairs := pairs, ages := src.ages, base_probs := base_probs }
      else .ok { s1 with pairs := pairs, ages := src.ages }

/-- `Sequences::get_pair(i)`. -/
def get_pair (s : Sequences K) (i : Int) : Except Fault Int :=
  if (s.pairs.length : Int) < i then .ok (-1)
  else vecGet s.pairs i

/-- `Sequences::switch_alleles(coord, seq1, seq2)`: the state of the object
afterwards. -/
def switch_alleles (s : Sequences K) (coord seq1 seq2 : Int) :
    Except Fault (Sequences K) :=
  match swapCells s.seqs coord seq1 seq2 with
  | .error e => .error e
  | .ok seqs =>
    if s.base_probs.length > 0 then
      match swapCells s.base_probs coord seq1 seq2 with
      | .error e => .error e
      | .ok base_probs => .ok { s with seqs := seqs, base_probs := base_probs }
    else .ok { s with seqs := seqs }

end Sequences

/-! ## `thread.h`: removal paths

`thread.h` holds the class `RemovalPaths` with the bodies of its methods, and
declarations only of the functions of the thread engine. -/

/-- The type `next_row` of `RemovalPaths` (`typedef int next_row[2]`): an array
of two node slots. -/
abbrev next_row : Type := Fin 2 → Int

/-- Modelled from the spec: `new_matrix<T>(nrows, ncols)` of `common.h`, which
is not among the sources. `RemovalPaths` "allocates a dense `ntrees × nnodes`
table" with it: `nrows` rows of `ncols` cells each. The cells are not
initialised; `fresh i j` is what cell `(i, j)` happens to hold. -/
def new_matrix {T : Type} (fresh : Nat → Nat → T) (nrows ncols : Int) : List (List T) :=
  (List.range nrows.toNat).map (fun i => (List.range ncols.toNat).map (fun j => fresh i j))

/-- The class `RemovalPaths`. The pointers `counts` and `backptrs` are `none`
when `NULL` and hold their table otherwise. -/
structure RemovalPaths (K : Type) where
  nnodes : Int
  ntrees : Int
  counts : Option (List (List K))
  backptrs : Option (List (List next_row))

namespace RemovalPaths

variable {K : Type}

/-- `RemovalPaths::clear`. The storage released by `delete_matrix` is not part
of the state. -/
def clear (rp : RemovalPaths K) : RemovalPaths K :=
  { rp with
    counts := match rp.counts with
      | some _ => none
      | none => none
    backptrs := match rp.backptrs with
      | some _ => none
      | none => none }

/-- `RemovalPaths::alloc(_nnodes, _ntrees)`: allocate path counts and traceback
tables. `freshCounts` and `freshPtrs` are the contents of the new,
uninitialised tables. -/
def alloc (rp : RemovalPaths K) (freshCounts : Nat → Nat → K)
    (freshPtrs : Nat → Nat → next_row) (_nnodes _ntrees : Int) : RemovalPaths K :=
  { rp.clear with
    nnodes := _nnodes
    ntrees := _ntrees
    counts := some (new_matrix freshCounts _ntrees _nnodes)
    backptrs := some (new_matrix freshPtrs _ntrees _nnodes) }

end RemovalPaths

/-- Example input: one sequence name and the single column `AC`. -/
def sitesAC : Sites ℚ :=
  Sites.mk "" 0 2 ["s1"] [0] [['A', 'C']] []

/-- Example input: three sequence names and the single column `NGA`. -/
def sitesNGA : Sites ℚ :=
  Sites.mk "" 0 9 ["s1", "s2", "s3"] [4] [['N', 'G', 'A']] []

/-- Example input: an alignment holding the one sequence `A`, named `x`, with
no base probabilities. -/
def seqsOne : Sequences ℚ :=
  Sequences.mk [['A']] ["x"] [] [] [] [] [] 1 false

/-- Example input: the masked probability vector `(1, 1, 1, 1)`. -/
def maskedProbs : BaseProbs ℚ :=
  BaseProbs.mk (fun _ => 1)

/-- Example input: the mapping of a region `[100, 200)` with the four sites
`110, 120, 150, 190`. -/
def sitesFour : SitesMapping :=
  SitesMapping.mk 100 200 0 4 4 100 [] [] [110, 120, 150, 190]

/-- Example input: the mapping of a region `[0, 2000000000)` with the two sites
`1500000000` and `1600000000`, both valid `int` coordinates beyond `2^30`. -/
def sitesFar : SitesMapping :=
  SitesMapping.mk 0 2000000000 0 2 2 2000000000 [] [] [1500000000, 1600000000]

/-- Example input: an alignment holding the one sequence `A`, named `x`, with
base probabilities for it. -/
def seqsProbs : Sequences ℚ :=
  Sequences.mk [['A']] ["x"] [] [] [] [] [[maskedProbs]] 1 false

/-- Example input: two sequences `AC` and `GT` with base probabilities: the
first sequence is a certain `A` followed by a certain `C`, the second is
masked at both positions. -/
def seqsPairProbs : Sequences ℚ :=
  Sequences.mk [['A', 'C'], ['G', 'T']] ["x_1", "x_2"] [1, 0] [] [] []
    [[BaseProbs.ofChar dnaCode 'A', BaseProbs.ofChar dnaCode 'C'],
     [maskedProbs, maskedProbs]] 2 false

/-- Example input: two sequences `AC` and `GT`, paired with each other, with no
base probabilities. -/
def seqsPair : Sequences ℚ :=
  Sequences.mk [['A', 'C'], ['G', 'T']] ["x_1", "x_2"] [1, 0] [] [] [] [] 2 false

/-! ## Properties of `SitesMapping::compress` -/

/-- Rounding up: when some site still to be visited is at or after `pos`, the
loop stops at the first such site. -/
theorem compressLoop_round_up (pos round_dir : Int) (n : Nat) (hr : round_dir ≥ 0) :
    ∀ (l : List Int) (k : Nat), (∃ x ∈ l, pos ≤ x) →
      ∃ j x, l[j]? = some x ∧ pos ≤ x ∧
        SitesMapping.compressLoop pos round_dir n l k = ((k + j : Nat) : Int) := by
  intro l
  induction l with
  | nil => intro k h; simp at h
  | cons y rest ih =>
    intro k h
    by_cases hy : y ≥ pos
    · exact ⟨0, y, by simp, hy, by simp [SitesMapping.compressLoop, hy, hr]⟩
    · have h2 : ∃ x ∈ rest, pos ≤ x := by
        obtain ⟨x, hx, hpx⟩ := h
        rcases List.mem_cons.mp hx with rfl | hx
        · exact absurd hpx hy
        · exact ⟨x, hx, hpx⟩
      obtain ⟨j, x, hj, hpx, hres⟩ := ih (k + 1) h2
      refine ⟨j + 1, x, by simpa using hj, hpx, ?_⟩
      simp only [SitesMapping.compressLoop, if_neg hy, hres]
      congr 1
      omega

/-- Rounding down: once a site before `pos` has been passed, the loop returns
the index of a site that is not after `pos`. -/
theorem compressLoop_round_down (pos round_dir : Int) (hr : round_dir < 0) :
    ∀ (l pre : List Int) (hpre : pre ≠ []), pre.getLast hpre < pos →
      ∃ (r : Nat) (v : Int), (pre ++ l)[r]? = some v ∧ v ≤ pos ∧
        SitesMapping.compressLoop pos round_dir (pre ++ l).length l pre.length = (r : Int) := by
  intro l
  induction l with
  | nil =>
    intro pre hpre hlast
    refine ⟨pre.length - 1, pre.getLast hpre, ?_, le_of_lt hlast, ?_⟩
    · simp [List.getLast_eq_getElem]
    · have : 0 < pre.length := List.length_pos.mpr hpre
      simp [SitesMapping.compressLoop]
      omega
  | cons y rest ih =>
    intro pre hpre hlast
    have hlen : 0 < pre.length := List.length_pos.mpr hpre
    by_cases hy : y ≥ pos
    · by_cases he : y = pos
      · refine ⟨pre.length, y, ?_, le_of_eq he, ?_⟩
        · rw [List.getElem?_append_right (le_refl _)]
          simp
        simp [SitesMapping.compressLoop, he]
      · refine ⟨pre.length - 1, pre.getLast hpre, ?_, le_of_lt hlast, ?_⟩
        · rw [List.getElem?_append_left (by omega)]
          simp [List.getLast_eq_getElem]
        · have h0 : pre.length ≠ 0 := by omega
          have hr2 : ¬ round_dir ≥ 0 := by omega
          simp only [SitesMapping.compressLoop, if_pos hy, hr2, h0, he, or_self, if_false]
          omega
    · have hy2 : y < pos := lt_of_not_ge hy
      obtain ⟨r, v, hv, hvp, hres⟩ := ih (pre ++ [y]) (by simp) (by simpa using hy2)
      refine ⟨r, v, by simpa using hv, hvp, ?_⟩
      simp only [SitesMapping.compressLoop, if_neg hy]
      simpa using hres

/-- Searching for the coordinate of a site: when every site visited before
`l[j]` is smaller than it, the loop returns the index of `l[j]`, whatever the
rounding direction. -/
theorem compressLoop_hit (round_dir : Int) (n : Nat) :
    ∀ (l : List Int) (k j : Nat) (v : Int), l[j]? = some v →
      (∀ t x, t < j → l[t]? = some x → x < v) →
      SitesMapping.compressLoop v round_dir n l k = ((k + j : Nat) : Int) := by
  intro l
  induction l with
  | nil => intro k j v h; simp at h
  | cons y rest ih =>
    intro k j v hj hlt
    cases j with
    | zero =>
      have : y = v := by simpa using hj
      subst this
      simp [SitesMapping.compressLoop]
    | succ j =>
      have hy : y < v := hlt 0 y (by omega) (by simp)
      have hy2 : ¬ y ≥ v := not_le.mpr hy
      simp only [SitesMapping.compressLoop, if_neg hy2]
      rw [ih (k + 1) j v (by simpa using hj)
        (fun t x ht hx => hlt (t + 1) x (by omega) (by simpa using hx))]
      congr 1
      omega

/-- In a strictly increasing vector, sites at smaller indices hold smaller
coordinates. -/
theorem pairwise_getElem_lt {a : List Int} (hs : a.Pairwise (fun x y => x < y))
    {s t : Nat} {x y : Int} (hst : s < t) (hx : a[s]? = some x) (hy : a[t]? = some y) :
    x < y := by
  obtain ⟨h1, rfl⟩ := List.getElem?_eq_some.mp hx
  obtain ⟨h2, rfl⟩ := List.getElem?_eq_some.mp hy
  exact List.pairwise_iff_getElem.mp hs s t h1 h2 hst

/-- C1 (as stated) fails: with the single site 5 and `pos = 10`, rounding up
returns index 0, whose coordinate 5 is below `pos`; no returned index has a
coordinate at or above `pos`. -/
theorem compress_round_up_counterexample :
    (sitesOnly [5]).all_sites ≠ [] ∧
    (sitesOnly [5]).all_sites.Pairwise (fun x y => x < y) ∧
    (sitesOnly [5]).compress 10 0 0 = .ok 0 ∧
    (sitesOnly [5]).uncompress 0 = .ok 5 ∧
    ¬ ∃ r v, (sitesOnly [5]).compress 10 0 0 = .ok r ∧
        (sitesOnly [5]).uncompress r = .ok v ∧ v ≥ 10 := by
  refine ⟨by decide, by decide, by decide, by decide, ?_⟩
  rintro ⟨r, v, h1, h2, h3⟩
  have hr : r = 0 := by
    have h : (sitesOnly [5]).compress 10 0 0 = .ok 0 := by decide
    rw [h] at h1
    injection h1 with h1
    exact h1.symm
  subst hr
  have hv : v = 5 := by
    have h : (sitesOnly [5]).uncompress 0 = .ok 5 := by decide
    rw [h] at h2
    injection h2 with h2
    exact h2.symm
  omega

/-- C1 (amended): for a non-empty strictly increasing `all_sites`, a rounding
direction `round_dir >= 0`, `start = 0` and every `pos` not beyond the last
site, `compress` returns an index `r` with `uncompress(r) = all_sites[r] >= pos`. -/
theorem compress_round_up_bound (m : SitesMapping) (pos round_dir : Int)
    (hne : m.all_sites ≠ [])
    (_hs : m.all_sites.Pairwise (fun x y => x < y))
    (hr : round_dir ≥ 0)
    (hpos : pos ≤ m.all_sites.getLast hne) :
    ∃ r v, m.compress pos round_dir 0 = .ok r ∧ m.uncompress r = .ok v ∧ v ≥ pos := by
  obtain ⟨j, x, hj, hpx, hres⟩ :=
    compressLoop_round_up pos round_dir m.all_sites.length hr m.all_sites 0
      ⟨m.all_sites.getLast hne, List.getLast_mem hne, hpos⟩
  refine ⟨(j : Int), x, ?_, ?_, hpx⟩
  · simp [SitesMapping.compress, hres]
  · simp [SitesMapping.uncompress, vecGet, hj]

theorem compress_round_up_bound_witness :
    (sitesOnly [2, 5, 9]).all_sites.Pairwise (fun x y => x < y) ∧
    (6 : Int) ≤ (sitesOnly [2, 5, 9]).all_sites.getLast (by decide) ∧
    ∃ r v, (sitesOnly [2, 5, 9]).compress 6 1 0 = .ok r ∧
      (sitesOnly [2, 5, 9]).uncompress r = .ok v ∧ v ≥ 6 :=
  ⟨by decide, by decide,
    compress_round_up_bound (sitesOnly [2, 5, 9]) 6 1 (by decide) (by decide)
      (by decide) (by decide)⟩

/-- C2 (as stated) fails: with the single site 5 and `pos = 3`, rounding down
returns index 0, whose coordinate 5 is above `pos`. -/
theorem compress_round_down_counterexample :
    (sitesOnly [5]).all_sites ≠ [] ∧
    (sitesOnly [5]).all_sites.Pairwise (fun x y => x < y) ∧
    (sitesOnly [5]).compress 3 (-1) 0 = .ok 0 ∧
    (sitesOnly [5]).uncompress 0 = .ok 5 ∧
    ¬ ∃ r v, (sitesOnly [5]).compress 3 (-1) 0 = .ok r ∧
        (sitesOnly [5]).uncompress r = .ok v ∧ v ≤ 3 := by
  refine ⟨by decide, by decide, by decide, by decide, ?_⟩
  rintro ⟨r, v, h1, h2, h3⟩
  have hr : r = 0 := by
    have h : (sitesOnly [5]).compress 3 (-1) 0 = .ok 0 := by decide
    rw [h] at h1
    injection h1 with h1
    exact h1.symm
  subst hr
  have hv : v = 5 := by
    have h : (sitesOnly [5]).uncompress 0 = .ok 5 := by decide
    rw [h] at h2
    injection h2 with h2
    exact h2.symm
  omega

/-- C2 (amended): for a non-empty strictly increasing `all_sites`, a rounding
direction `round_dir < 0`, `start = 0` and every `pos` not before the first
site, `compress` returns an index `r` with `uncompress(r) = all_sites[r] <= pos`. -/
theorem compress_round_down_bound (m : SitesMapping) (pos round_dir : Int)
    (hne : m.all_sites ≠ [])
    (_hs : m.all_sites.Pairwise (fun x y => x < y))
    (hr : round_dir < 0)
    (hpos : m.all_sites.head hne ≤ pos) :
    ∃ r v, m.compress pos round_dir 0 = .ok r ∧ m.uncompress r = .ok v ∧ v ≤ pos := by
  obtain ⟨y, rest, hcons⟩ := List.exists_cons_of_ne_nil hne
  have hy : y ≤ pos := by simpa [hcons] using hpos
  by_cases hge : y ≥ pos
  · refine ⟨0, y, ?_, ?_, hy⟩
    · simp [SitesMapping.compress, hcons, SitesMapping.compressLoop, hge]
    · simp [SitesMapping.uncompress, vecGet, hcons]
  · obtain ⟨r, v, hv, hvp, hres⟩ :=
      compressLoop_round_down pos round_dir hr rest [y] (by simp)
        (by simpa using lt_of_not_ge hge)
    refine ⟨(r : Int), v, ?_, ?_, hvp⟩
    · simp only [SitesMapping.compress, hcons]
      have hres2 : SitesMapping.compressLoop pos round_dir (rest.length + 1) rest 1 = (r : Int) := by
        simpa using hres
      simp [SitesMapping.compressLoop, hge, hres2]
    · have hv2 : (y :: rest)[r]? = some v := by simpa using hv
      simp [SitesMapping.uncompress, vecGet, hcons, hv2]

theorem compress_round_down_bound_witness :
    (sitesOnly [2, 5, 9]).all_sites.Pairwise (fun x y => x < y) ∧
    (sitesOnly [2, 5, 9]).all_sites.head (by decide) ≤ (6 : Int) ∧
    ∃ r v, (sitesOnly [2, 5, 9]).compress 6 (-1) 0 = .ok r ∧
      (sitesOnly [2, 5, 9]).uncompress r = .ok v ∧ v ≤ 6 :=
  ⟨by decide, by decide,
    compress_round_down_bound (sitesOnly [2, 5, 9]) 6 (-1) (by decide) (by decide)
      (by decide) (by decide)⟩

/-- C3: `compress` undoes `uncompress`. For a strictly increasing `all_sites`
of length `n`, every index `i` with `0 <= start <= i < n` and every
`round_dir`, `compress(uncompress(i), round_dir, start) = i`. -/
theorem compress_uncompress (m : SitesMapping) (i start round_dir : Int)
    (hs : m.all_sites.Pairwise (fun x y => x < y))
    (h0 : 0 ≤ start) (h1 : start ≤ i) (h2 : i < m.all_sites.length) :
    ∃ v, m.uncompress i = .ok v ∧ m.compress v round_dir start = .ok i := by
  obtain ⟨I, rfl⟩ := Int.eq_ofNat_of_zero_le (le_trans h0 h1)
  obtain ⟨S, rfl⟩ := Int.eq_ofNat_of_zero_le h0
  have hI : I < m.all_sites.length := by exact_mod_cast h2
  have hSI : S ≤ I := by exact_mod_cast h1
  refine ⟨m.all_sites[I], ?_, ?_⟩
  · simp [SitesMapping.uncompress, vecGet, hI]
  · have hget : (m.all_sites.drop S)[I - S]? = some m.all_sites[I] := by
      rw [List.getElem?_drop]
      have : S + (I - S) = I := by omega
      rw [this]
      exact List.getElem?_eq_getElem hI
    have hlt : ∀ t x, t < I - S → (m.all_sites.drop S)[t]? = some x →
        x < m.all_sites[I] := by
      intro t x ht hx
      rw [List.getElem?_drop] at hx
      exact pairwise_getElem_lt hs (by omega) hx (List.getElem?_eq_getElem hI)
    have hres := compressLoop_hit round_dir m.all_sites.length
      (m.all_sites.drop S) S (I - S) m.all_sites[I] hget hlt
    have hS : ¬ ((S : Int) < 0) := by omega
    simp only [SitesMapping.compress, if_neg hS, Int.toNat_ofNat, hres]
    congr 2
    omega

theorem compress_uncompress_witness :
    (sitesOnly [2, 5, 9]).all_sites.Pairwise (fun x y => x < y) ∧
    ∃ v, (sitesOnly [2, 5, 9]).uncompress 2 = .ok v ∧
      (sitesOnly [2, 5, 9]).compress v (-1) 1 = .ok 2 :=
  ⟨by decide,
    compress_uncompress (sitesOnly [2, 5, 9]) 2 1 (-1) (by decide) (by decide)
      (by decide) (by decide)⟩

/-! ## Properties of `compress_blocks` and `uncompress_blocks` -/

/-- A non-empty list of positive block lengths has a positive sum. -/
theorem sum_pos_of_blocks : ∀ (bs : List Int), bs ≠ [] → (∀ b ∈ bs, 0 < b) → 0 < bs.sum := by
  intro bs
  induction bs with
  | nil => intro h; exact absurd rfl h
  | cons b rest ih =>
    intro _ hpos
    have hb : 0 < b := hpos b (List.mem_cons_self _ _)
    by_cases hrest : rest = []
    · simp [hrest, hb]
    · have := ih hrest (fun x hx => hpos x (List.mem_cons_of_mem _ hx))
      simp only [List.sum_cons]
      omega

/-- The scan of `compress_blocks` stays inside the vector and stops between
its starting point and `new_seqlen`. -/
theorem skipSites_ok (n e : Int) :
    ∀ (l : List Int) (cur2 : Int), cur2 ≤ n → n - cur2 ≤ l.length →
      ∃ c, SitesMapping.skipSites n e l cur2 = .ok c ∧ cur2 ≤ c ∧ c ≤ n := by
  intro l
  induction l with
  | nil =>
    intro cur2 h1 h2
    have : ¬ cur2 < n := by simp at h2; omega
    exact ⟨cur2, by simp [SitesMapping.skipSites, this], le_refl _, h1⟩
  | cons x rest ih =>
    intro cur2 h1 h2
    by_cases hc : cur2 < n ∧ x < e
    · obtain ⟨c, hc1, hc2, hc3⟩ := ih (cur2 + 1) (by omega)
        (by simp only [List.length_cons, Nat.cast_add, Nat.cast_one] at h2; omega)
      exact ⟨c, by simp only [SitesMapping.skipSites, if_pos hc, hc1], by omega, hc3⟩
    · exact ⟨cur2, by simp only [SitesMapping.skipSites, if_neg hc], le_refl _, h1⟩

/-- The scan of `compress_blocks`, started inside the compressed region. -/
theorem skipFrom_ok (m : SitesMapping) (n e cur : Int)
    (h0 : 0 ≤ cur) (h1 : cur ≤ n) (h2 : n ≤ m.all_sites.length) :
    ∃ c, m.skipFrom n e cur = .ok c ∧ cur ≤ c ∧ c ≤ n := by
  have hneg : ¬ cur < 0 := by omega
  simp only [SitesMapping.skipFrom, if_neg hneg]
  apply skipSites_ok n e _ cur h1
  simp only [List.length_drop]
  omega

/-- The loop of `compress_blocks` on the remaining blocks: the lengths it
appends are non-negative, one per block, and span the rest of the compressed
region. -/
theorem compressBlocksLoop_ok (m : SitesMapping) (hstart : m.new_start = 0)
    (hlen : m.new_end ≤ m.all_sites.length) :
    ∀ (bs : List Int) (cur end_ : Int) (acc : List Int), bs ≠ [] →
      (∀ b ∈ bs, 0 < b) → end_ + bs.sum = m.old_end → 0 ≤ cur → cur ≤ m.new_end →
      ∃ out, m.compressBlocksLoop bs cur end_ acc = .ok (acc ++ out) ∧
        out.length = bs.length ∧ (∀ x ∈ out, 0 ≤ x) ∧ out.sum = m.new_end - cur := by
  intro bs
  induction bs with
  | nil => intro _ _ _ h; exact absurd rfl h
  | cons b rest ih =>
    intro cur end_ acc _ hpos hsum h0 h1
    by_cases hrest : rest = []
    · subst hrest
      have hlast : ¬ end_ + b < m.old_end := by simp at hsum; omega
      refine ⟨[m.new_end - cur], ?_, rfl, ?_, by simp⟩
      · simp only [SitesMapping.compressBlocksLoop, if_neg hlast]
      · intro x hx
        simp only [List.mem_singleton] at hx
        omega
    · have hrestpos : ∀ x ∈ rest, 0 < x := fun x hx => hpos x (List.mem_cons_of_mem _ hx)
      have hs := sum_pos_of_blocks rest hrest hrestpos
      have hlt : end_ + b < m.old_end := by simp only [List.sum_cons] at hsum; omega
      obtain ⟨c, hc1, hc2, hc3⟩ := skipFrom_ok m (m.new_end - m.new_start) (end_ + b) cur h0
        (by omega) (by omega)
      obtain ⟨out, ho1, ho2, ho3, ho4⟩ := ih c (end_ + b) (acc ++ [c - cur]) hrest hrestpos
        (by simp only [List.sum_cons] at hsum; omega) (by omega) (by omega)
      refine ⟨(c - cur) :: out, ?_, by simp [ho2], ?_, ?_⟩
      · simp only [SitesMapping.compressBlocksLoop, if_pos hlt, hc1, ho1]
        simp
      · intro x hx
        rcases List.mem_cons.mp hx with rfl | hx
        · omega
        · exact ho3 x hx
      · simp only [List.sum_cons, ho4]
        omega

/-- C4: `compress_blocks` turns a partition of the full region into a
partition of the compressed region. For a non-empty list of positive block
lengths summing to `old_end - old_start`, with `new_start = 0 <= new_end` and
`all_sites` holding at least `new_end` entries, a call on an empty `blocks2`
appends one non-negative length per input block, and these lengths sum to
`new_end - new_start`. -/
theorem compress_blocks_partition (m : SitesMapping) (blocks : List Int)
    (hne : blocks ≠ []) (hpos : ∀ b ∈ blocks, 0 < b)
    (hsum : blocks.sum = m.old_end - m.old_start)
    (hstart : m.new_start = 0) (hend : 0 ≤ m.new_end)
    (hlen : m.new_end ≤ m.all_sites.length) :
    ∃ out, m.compress_blocks blocks [] = .ok out ∧ out.length = blocks.length ∧
      (∀ x ∈ out, 0 ≤ x) ∧ out.sum = m.new_end - m.new_start := by
  obtain ⟨out, h1, h2, h3, h4⟩ := compressBlocksLoop_ok m hstart hlen blocks m.new_start
    m.old_start [] hne hpos (by omega) (by omega) (by omega)
  exact ⟨out, by simpa [SitesMapping.compress_blocks] using h1, h2, h3, h4⟩

theorem compress_blocks_partition_witness :
    ([15, 10, 50, 25] : List Int) ≠ [] ∧ (∀ b ∈ ([15, 10, 50, 25] : List Int), 0 < b) ∧
    ([15, 10, 50, 25] : List Int).sum = 200 - 100 ∧
    ∃ out, (SitesMapping.mk 100 200 0 4 4 100 [] [] [110, 120, 150, 190]).compress_blocks
        [15, 10, 50, 25] [] = .ok out ∧
      out.length = ([15, 10, 50, 25] : List Int).length ∧
      (∀ x ∈ out, 0 ≤ x) ∧ out.sum = 4 - 0 :=
  ⟨by decide, by decide, by decide,
    compress_blocks_partition (SitesMapping.mk 100 200 0 4 4 100 [] [] [110, 120, 150, 190])
      [15, 10, 50, 25] (by decide) (by decide) (by decide) (by decide) (by decide)
      (by decide)⟩

/-- Truncating division by two is bounded below by any `lo` with `2 * lo ≤ x`. -/
theorem le_tdiv_two (x lo : Int) (h : 2 * lo ≤ x) : lo ≤ Int.tdiv x 2 := by
  rcases le_or_lt 0 x with hx | hx
  · rw [Int.tdiv_eq_ediv hx (by norm_num)]
    omega
  · obtain ⟨y, rfl⟩ : ∃ y, x = -y := ⟨-x, by omega⟩
    rw [Int.neg_tdiv, Int.tdiv_eq_ediv (by omega) (by norm_num)]
    omega

/-- Truncating division by two is bounded above by any `hi` with `x ≤ 2 * hi`. -/
theorem tdiv_two_le (x hi : Int) (h : x ≤ 2 * hi) : Int.tdiv x 2 ≤ hi := by
  rcases le_or_lt 0 x with hx | hx
  · rw [Int.tdiv_eq_ediv hx (by norm_num)]
    omega
  · obtain ⟨y, rfl⟩ : ∃ y, x = -y := ⟨-x, by omega⟩
    rw [Int.neg_tdiv, Int.tdiv_eq_ediv (by omega) (by norm_num)]
    omega

/-- A read inside the bounds of a vector succeeds. -/
theorem vecGet_ok (a : List Int) (i : Int) (h0 : 0 ≤ i) (h1 : i < a.length) :
    ∃ v, vecGet a i = .ok v ∧ a[i.toNat]? = some v := by
  have hi : i.toNat < a.length := by omega
  have hneg : ¬ i < 0 := by omega
  exact ⟨a[i.toNat], by simp [vecGet, hneg, hi], List.getElem?_eq_getElem hi⟩

/-- A successful read returns the element at that index. -/
theorem vecGet_eq_ok {a : List Int} {i v : Int} (h : vecGet a i = .ok v) :
    0 ≤ i ∧ a[i.toNat]? = some v := by
  unfold vecGet at h
  by_cases hneg : i < 0
  · simp [hneg] at h
  · simp only [if_neg hneg] at h
    refine ⟨by omega, ?_⟩
    cases hget : a[i.toNat]? with
    | none => simp [hget] at h
    | some x =>
      simp only [hget] at h
      injection h with h
      rw [h]

/-- In a strictly increasing vector, sites at indices in order hold
coordinates in order. -/
theorem pairwise_getElem_le {a : List Int} (hs : a.Pairwise (fun x y => x < y))
    {s t : Nat} {x y : Int} (hst : s ≤ t) (hx : a[s]? = some x) (hy : a[t]? = some y) :
    x ≤ y := by
  rcases Nat.eq_or_lt_of_le hst with rfl | hlt
  · rw [hx] at hy
    injection hy with hy
    exact le_of_eq hy
  · exact le_of_lt (pairwise_getElem_lt hs hlt hx hy)

/-- An exact result within the range of `int` is not changed by wrapping. -/
theorem wrapInt_eq (x : Int) (h1 : -2147483648 ≤ x) (h2 : x ≤ 2147483647) :
    wrapInt x = x := by
  unfold wrapInt
  omega

/-- For two neighbouring sites strictly between `-2^30` and `2^30` the block end
is computed without overflow and lies after the first and not after the
second. -/
theorem blockEnd_bounds (lo hi : Int) (h1 : -1073741824 < lo) (h2 : hi < 1073741824)
    (h : lo < hi) :
    lo + 1 ≤ SitesMapping.blockEnd lo hi ∧ SitesMapping.blockEnd lo hi ≤ hi := by
  unfold SitesMapping.blockEnd
  rw [wrapInt_eq (lo + 1) (by omega) (by omega),
    wrapInt_eq (lo + 1 + hi) (by omega) (by omega)]
  exact ⟨le_tdiv_two _ _ (by omega), tdiv_two_le _ _ (by omega)⟩

/-- A strictly increasing vector with all entries strictly between `lo` and
`hi` has at most `hi - lo - 1` entries. -/
theorem length_le_of_pairwise :
    ∀ (l : List Int) (lo hi : Int), l.Pairwise (fun x y => x < y) →
      (∀ x ∈ l, lo < x ∧ x < hi) → l = [] ∨ (l.length : Int) ≤ hi - lo - 1 := by
  intro l
  induction l with
  | nil => intro _ _ _ _; exact Or.inl rfl
  | cons x t ih =>
    intro lo hi hp hb
    right
    have hx := hb x (List.mem_cons_self _ _)
    have hp2 := List.pairwise_cons.mp hp
    rcases ih x hi hp2.2 (fun y hy =>
      ⟨hp2.1 y hy, (hb y (List.mem_cons_of_mem _ hy)).2⟩) with h | h
    · subst h
      simp only [List.length_cons, List.length_nil]
      omega
    · simp only [List.length_cons]
      push_cast
      omega

/-- The number of sites of a strictly increasing vector of coordinates strictly
between `-2^30` and `2^30` is a value of `int`. -/
theorem sites_length_le (a : List Int) (hs : a.Pairwise (fun x y => x < y))
    (hsites : ∀ x ∈ a, -1073741824 < x ∧ x < 1073741824) :
    (a.length : Int) ≤ 2147483647 := by
  rcases length_le_of_pairwise a (-1073741824) 1073741824 hs hsites with h | h
  · subst h
    simp
  · omega

/-- The loop of `uncompress_blocks` on the remaining blocks, entered with `cur`
not after the site at index `end`, for coordinates strictly between `-2^30`
and `2^30`: no computation overflows, no assertion fails, every block end is
placed after the previous one, one length per block is appended, and, when
`old_end` is in that range too, the lengths span the rest of the full
region. -/
theorem uncompressBlocksLoop_ok (m : SitesMapping)
    (hs : m.all_sites.Pairwise (fun x y => x < y))
    (hlen : m.new_end ≤ m.all_sites.length) (hmax : m.new_end ≤ 2147483647)
    (hsites : ∀ x ∈ m.all_sites, -1073741824 < x ∧ x < 1073741824) :
    ∀ (bs : List Int) (cur end_ : Int) (acc : List Int) (v : Int), bs ≠ [] →
      (∀ b ∈ bs, 0 < b) → end_ + bs.sum = m.new_end → 0 ≤ end_ →
      vecGet m.all_sites end_ = .ok v → cur ≤ v → -1073741824 < cur →
      ∃ out, m.uncompressBlocksLoop bs cur end_ acc = .ok (acc ++ out) ∧
        out.length = bs.length ∧ (∀ x ∈ out.dropLast, 0 < x) ∧
        (-1073741824 < m.old_end ∧ m.old_end < 1073741824 →
          out.sum = m.old_end - cur) := by
  intro bs
  induction bs with
  | nil => intro _ _ _ _ h; exact absurd rfl h
  | cons b rest ih =>
    intro cur end_ acc v _ hpos hsum h0 hv hcur hcurlo
    have hv2 := (vecGet_eq_ok hv).2
    have hvb := hsites v (List.mem_iff_getElem?.mpr ⟨_, hv2⟩)
    have hb : 0 < b := hpos b (List.mem_cons_self _ _)
    by_cases hrest : rest = []
    · subst hrest
      have hsum2 : end_ + b = m.new_end := by simpa using hsum
      have he : wrapInt (end_ + b) = end_ + b := wrapInt_eq _ (by omega) (by omega)
      have hlast : ¬ end_ + b < m.new_end := by omega
      refine ⟨[wrapInt (m.old_end - cur)], ?_, rfl, by simp, ?_⟩
      · simp only [SitesMapping.uncompressBlocksLoop, he, if_neg hlast]
      · intro hoe
        rw [wrapInt_eq (m.old_end - cur) (by omega) (by omega)]
        simp
    · have hrestpos : ∀ x ∈ rest, 0 < x := fun x hx => hpos x (List.mem_cons_of_mem _ hx)
      have hsumpos := sum_pos_of_blocks rest hrest hrestpos
      have hlt : end_ + b < m.new_end := by simp only [List.sum_cons] at hsum; omega
      have he : wrapInt (end_ + b) = end_ + b := wrapInt_eq _ (by omega) (by omega)
      have he1 : wrapInt (end_ + b - 1) = end_ + b - 1 := wrapInt_eq _ (by omega) (by omega)
      obtain ⟨lo, hlo, hlo2⟩ := vecGet_ok m.all_sites (end_ + b - 1) (by omega) (by omega)
      obtain ⟨hi, hhi, hhi2⟩ := vecGet_ok m.all_sites (end_ + b) (by omega) (by omega)
      have hlob := hsites lo (List.mem_iff_getElem?.mpr ⟨_, hlo2⟩)
      have hhib := hsites hi (List.mem_iff_getElem?.mpr ⟨_, hhi2⟩)
      have hvlo : v ≤ lo := pairwise_getElem_le hs (by omega) hv2 hlo2
      have hlohi : lo < hi := pairwise_getElem_lt hs (by omega) hlo2 hhi2
      obtain ⟨hc1, hc2⟩ := blockEnd_bounds lo hi hlob.1 hhib.2 hlohi
      have hgt : SitesMapping.blockEnd lo hi > cur := by omega
      have hw : wrapInt (SitesMapping.blockEnd lo hi - cur) = SitesMapping.blockEnd lo hi - cur :=
        wrapInt_eq _ (by omega) (by omega)
      obtain ⟨out, ho1, ho2, ho3, ho4⟩ := ih (SitesMapping.blockEnd lo hi) (end_ + b)
        (acc ++ [SitesMapping.blockEnd lo hi - cur]) hi hrest hrestpos
        (by simp only [List.sum_cons] at hsum; omega) (by omega) hhi hc2 (by omega)
      refine ⟨(SitesMapping.blockEnd lo hi - cur) :: out, ?_, by simp [ho2], ?_, ?_⟩
      · simp only [SitesMapping.uncompressBlocksLoop, he, he1, if_pos hlt, hlo, hhi,
          if_pos hgt, hw, ho1]
        simp
      · have hout : out ≠ [] := by
          intro h
          rw [h] at ho2
          exact hrest (List.length_eq_zero.mp ho2.symm)
        obtain ⟨y, ys, rfl⟩ := List.exists_cons_of_ne_nil hout
        intro x hx
        rw [List.dropLast_cons₂] at hx
        rcases List.mem_cons.mp hx with rfl | hx
        · omega
        · exact ho3 x hx
      · intro hoe
        simp only [List.sum_cons, ho4 hoe]
        omega

/-- C5 (as stated) fails, in two ways. With sites `[1, 2]`, `new_end = 2`, blocks
`[1, 1]` and `old_start = 10`, every stated precondition holds, the first block
end is placed at `(1 + 1 + 2) / 2 = 2`, which is not after
`cur = old_start = 10`, and the run aborts in `assert(cur2 > cur)`. With sites
`[1500000000, 1600000000]` and `old_start = 0` every stated precondition
holds again, the `int` sum `1500000000 + 1 + 1600000000` wraps around to
`-1194967295`, the block end is `-597483647`, and the run aborts in the same
assertion. -/
theorem uncompress_blocks_counterexample :
    ([1, 1] : List Int) ≠ [] ∧ (∀ b ∈ ([1, 1] : List Int), 0 < b) ∧
    ([1, 1] : List Int).sum = 2 - 0 ∧
    (SitesMapping.mk 10 20 0 2 2 10 [] [] [1, 2]).all_sites.Pairwise (fun x y => x < y) ∧
    (2 : Int) ≤ (SitesMapping.mk 10 20 0 2 2 10 [] [] [1, 2]).all_sites.length ∧
    (SitesMapping.mk 10 20 0 2 2 10 [] [] [1, 2]).uncompress_blocks [1, 1] [] =
      .error .assertion ∧
    sitesFar.all_sites.Pairwise (fun x y => x < y) ∧
    sitesFar.new_start = 0 ∧ ([1, 1] : List Int).sum = sitesFar.new_end - sitesFar.new_start ∧
    sitesFar.new_end ≤ sitesFar.all_sites.length ∧
    sitesFar.uncompress 0 = .ok 1500000000 ∧ sitesFar.old_start ≤ 1500000000 ∧
    SitesMapping.blockEnd 1500000000 1600000000 = -597483647 ∧
    sitesFar.uncompress_blocks [1, 1] [] = .error .assertion := by
  decide

/-- C5 (amended): `uncompress_blocks` turns a partition of the compressed
region into a partition of the full region when the full region does not start
after the first site and the coordinates are small enough for `int`
arithmetic. For a non-empty list of positive block lengths summing to
`new_end - new_start`, with `new_start = 0`, `all_sites` strictly increasing
with at least `new_end` entries, `old_start <= all_sites[0]`, and `old_start`,
`old_end` and every site strictly between `-2^30` and `2^30`, a call on an
empty `blocks2` appends one length per input block, and these lengths sum to
`old_end - old_start`. -/
theorem uncompress_blocks_partition (m : SitesMapping) (blocks : List Int)
    (hne : blocks ≠ []) (hpos : ∀ b ∈ blocks, 0 < b)
    (hsum : blocks.sum = m.new_end - m.new_start)
    (hstart : m.new_start = 0)
    (hs : m.all_sites.Pairwise (fun x y => x < y))
    (hlen : m.new_end ≤ m.all_sites.length)
    (v0 : Int) (hv0 : m.uncompress 0 = .ok v0) (hold : m.old_start ≤ v0)
    (hsites : ∀ x ∈ m.all_sites, -1073741824 < x ∧ x < 1073741824)
    (hlow : -1073741824 < m.old_start)
    (hoe : -1073741824 < m.old_end ∧ m.old_end < 1073741824) :
    ∃ out, m.uncompress_blocks blocks [] = .ok out ∧ out.length = blocks.length ∧
      out.sum = m.old_end - m.old_start := by
  have hmax : m.new_end ≤ 2147483647 :=
    le_trans hlen (sites_length_le m.all_sites hs hsites)
  obtain ⟨out, h1, h2, _, h4⟩ := uncompressBlocksLoop_ok m hs hlen hmax hsites blocks
    m.old_start m.new_start [] v0 hne hpos (by omega) (by omega)
    (by rw [hstart]; exact hv0) hold hlow
  exact ⟨out, by simpa [SitesMapping.uncompress_blocks] using h1, h2, h4 hoe⟩

theorem uncompress_blocks_partition_witness :
    ([1, 2, 1] : List Int) ≠ [] ∧ (∀ b ∈ ([1, 2, 1] : List Int), 0 < b) ∧
    ([1, 2, 1] : List Int).sum = 4 - 0 ∧
    sitesFour.all_sites.Pairwise (fun x y => x < y) ∧
    sitesFour.uncompress 0 = .ok 110 ∧
    (∀ x ∈ sitesFour.all_sites, -1073741824 < x ∧ x < 1073741824) ∧
    -1073741824 < sitesFour.old_start ∧
    (-1073741824 < sitesFour.old_end ∧ sitesFour.old_end < 1073741824) ∧
    ∃ out, sitesFour.uncompress_blocks [1, 2, 1] [] = .ok out ∧
      out.length = ([1, 2, 1] : List Int).length ∧
      out.sum = sitesFour.old_end - sitesFour.old_start :=
  ⟨by decide, by decide, by decide, by decide, by decide, by decide, by decide, by decide,
    uncompress_blocks_partition sitesFour [1, 2, 1] (by decide) (by decide) (by decide)
      (by decide) (by decide) (by decide) 110 (by decide) (by decide) (by decide)
      (by decide) (by decide)⟩

/-! ## Properties of `BaseProbs` -/

/-- The masked vector is masked and not certain. -/
theorem masked_flags {K : Type} [LinearOrderedField K] (bp : BaseProbs K)
    (h : ∀ i, bp.prob i = 1) :
    bp.is_masked = true ∧ bp.is_certain 1e-8 = .ok false := by
  have h1 : ¬ ((1 : K) < 0.99) := by norm_num
  have h2 : (1 : K) > 1e-8 := by norm_num
  constructor
  · simp [BaseProbs.is_masked, h, h1]
  · simp [BaseProbs.is_certain, BaseProbs.countPossible, List.finRange, h, h2]

/-- A vector with a single entry 1 and zeros elsewhere is certain and not
masked. -/
theorem certain_flags {K : Type} [LinearOrderedField K] (bp : BaseProbs K) (p : Fin 4)
    (hp : bp.prob p = 1) (h0 : ∀ i, i ≠ p → bp.prob i = 0) :
    bp.is_masked = false ∧ bp.is_certain 1e-8 = .ok true := by
  have h1 : ¬ ((1 : K) < 0.99) := by norm_num
  have h2 : (1 : K) > 1e-8 := by norm_num
  have h3 : (0 : K) < 0.99 := by norm_num
  have h4 : ¬ ((0 : K) > 1e-8) := by norm_num
  have hall : ∀ i, bp.prob i = if i = p then 1 else 0 := by
    intro i
    by_cases hi : i = p
    · rw [if_pos hi, hi, hp]
    · rw [if_neg hi, h0 i hi]
  constructor
  · fin_cases p <;>
      simp [BaseProbs.is_masked, List.finRange, hall, h1, h3]
  · fin_cases p <;>
      simp [BaseProbs.is_certain, BaseProbs.countPossible, List.finRange, hall, h2, h4]

/-- C8: `BaseProbs(char c)` encodes a known base as a certain call and
anything else as masked. If `dna2int` maps `c` to a code `p` in `0..3` then
`prob[p] = 1` and the other three entries are 0, `is_certain()` is true and
`is_masked()` is false; otherwise all four entries are 1, `is_masked()` is
true and `is_certain()` is false. -/
theorem ofChar_certain_or_masked {K : Type} [LinearOrderedField K]
    (dna2int : Char → Int) (c : Char) :
    (∀ p : Fin 4, dna2int c = (p.val : Int) →
      (BaseProbs.ofChar dna2int c : BaseProbs K).prob p = 1 ∧
      (∀ i, i ≠ p → (BaseProbs.ofChar dna2int c : BaseProbs K).prob i = 0) ∧
      (BaseProbs.ofChar dna2int c : BaseProbs K).is_certain 1e-8 = .ok true ∧
      (BaseProbs.ofChar dna2int c : BaseProbs K).is_masked = false) ∧
    ((dna2int c < 0 ∨ dna2int c ≥ 4) →
      (∀ i, (BaseProbs.ofChar dna2int c : BaseProbs K).prob i = 1) ∧
      (BaseProbs.ofChar dna2int c : BaseProbs K).is_masked = true ∧
      (BaseProbs.ofChar dna2int c : BaseProbs K).is_certain 1e-8 = .ok false) := by
  constructor
  · intro p hp
    have hin : ¬ (dna2int c < 0 ∨ dna2int c ≥ 4) := by omega
    have hidx : (⟨(dna2int c).toNat, by omega⟩ : Fin 4) = p := by
      apply Fin.ext
      simp only [hp, Int.toNat_ofNat]
    have hprob : (BaseProbs.ofChar dna2int c : BaseProbs K).prob =
        Function.update (fun _ => 0) p 1 := by
      simp only [BaseProbs.ofChar, dif_neg hin, hidx]
    have h1 : (BaseProbs.ofChar dna2int c : BaseProbs K).prob p = 1 := by
      rw [hprob, Function.update_same]
    have h0 : ∀ i, i ≠ p → (BaseProbs.ofChar dna2int c : BaseProbs K).prob i = 0 := by
      intro i hi
      rw [hprob, Function.update_noteq hi]
    obtain ⟨hm, hc⟩ := certain_flags _ p h1 h0
    exact ⟨h1, h0, hc, hm⟩
  · intro hout
    have hall : ∀ i, (BaseProbs.ofChar dna2int c : BaseProbs K).prob i = 1 := by
      intro i
      simp only [BaseProbs.ofChar, dif_pos hout]
    obtain ⟨hm, hc⟩ := masked_flags _ hall
    exact ⟨hall, hm, hc⟩

theorem ofChar_certain_or_masked_witness :
    dnaCode 'G' = ((2 : Fin 4).val : Int) ∧
    ((BaseProbs.ofChar dnaCode 'G' : BaseProbs ℚ).prob 2 = 1 ∧
      (∀ i, i ≠ 2 → (BaseProbs.ofChar dnaCode 'G' : BaseProbs ℚ).prob i = 0) ∧
      (BaseProbs.ofChar dnaCode 'G' : BaseProbs ℚ).is_certain 1e-8 = .ok true ∧
      (BaseProbs.ofChar dnaCode 'G' : BaseProbs ℚ).is_masked = false) ∧
    (dnaCode 'N' < 0 ∨ dnaCode 'N' ≥ 4) ∧
    ((∀ i, (BaseProbs.ofChar dnaCode 'N' : BaseProbs ℚ).prob i = 1) ∧
      (BaseProbs.ofChar dnaCode 'N' : BaseProbs ℚ).is_masked = true ∧
      (BaseProbs.ofChar dnaCode 'N' : BaseProbs ℚ).is_certain 1e-8 = .ok false) :=
  ⟨by decide, (ofChar_certain_or_masked dnaCode 'G').1 2 (by decide), by decide,
    (ofChar_certain_or_masked dnaCode 'N').2 (by decide)⟩



/-- C6: a genotype PL parse failure is fatal. For every `pl` other than `"."`
whose split on `","` does not give exactly three fields, the constructor
`BaseProbs(refAllele, altAllele, pl, hap_id)` stops in the failing assertion
and yields no probability vector; for `pl = "."` it does not abort and yields
the masked vector `(1,1,1,1)`. -/
theorem ofPL_parse_failure {K : Type} [LinearOrderedField K]
    (dna2int : Char → Int) (split : String → String → List String)
    (atof : String → K) (pow : K → K → K)
    (refAllele altAllele : Char) (pl : String) (hap_id : Int) :
    (pl ≠ "." → (split pl ",").length ≠ 3 →
      BaseProbs.ofPL dna2int split atof pow refAllele altAllele pl hap_id
        = .error .assertion) ∧
    (pl = "." →
      ∃ bp : BaseProbs K,
        BaseProbs.ofPL dna2int split atof pow refAllele altAllele pl hap_id = .ok bp ∧
        ∀ i, bp.prob i = 1) := by
  constructor
  · intro hpl hlen
    simp only [BaseProbs.ofPL, if_neg hpl]
    split
    · next s0 s1 s2 heq =>
        rw [heq] at hlen
        exact absurd rfl hlen
    · rfl
  · intro hpl
    exact ⟨⟨fun _ => 1⟩, by simp only [BaseProbs.ofPL, if_pos hpl], fun _ => rfl⟩

theorem ofPL_parse_failure_witness :
    ("0,10" : String) ≠ "." ∧
    ((fun (_ _ : String) => ["0", "10"]) "0,10" ",").length ≠ 3 ∧
    BaseProbs.ofPL dnaCode (fun _ _ => ["0", "10"]) (fun _ => (0 : ℚ)) (fun _ _ => 1)
      'A' 'G' "0,10" 0 = .error .assertion ∧
    ∃ bp : BaseProbs ℚ,
      BaseProbs.ofPL dnaCode (fun _ _ => ["0", "10"]) (fun _ => (0 : ℚ)) (fun _ _ => 1)
        'A' 'G' "." 0 = .ok bp ∧ ∀ i, bp.prob i = 1 :=
  ⟨by decide, by decide,
    (ofPL_parse_failure dnaCode (fun _ _ => ["0", "10"]) (fun _ => (0 : ℚ))
      (fun _ _ => 1) 'A' 'G' "0,10" 0).1 (by decide) (by decide),
    (ofPL_parse_failure dnaCode (fun _ _ => ["0", "10"]) (fun _ => (0 : ℚ))
      (fun _ _ => 1) 'A' 'G' "." 0).2 rfl⟩


/-- Adding at a valid code updates that entry. -/
theorem addAt_fin {K : Type} [LinearOrderedField K] (prob : Fin 4 → K) (p : Fin 4) (x : K) :
    BaseProbs.addAt prob (p.val : Int) x = .ok (Function.update prob p (prob p + x)) := by
  have h : 0 ≤ (p.val : Int) ∧ (p.val : Int) < 4 := by omega
  have hidx : (⟨((p.val : Int)).toNat, by omega⟩ : Fin 4) = p := by
    apply Fin.ext
    simp
  simp only [BaseProbs.addAt, dif_pos h, hidx]

/-- Over the reals the weight of a PL score `s` is `10 ^ (-s / 10)`, a positive
number. -/
theorem plWeight_real (atof : String → ℝ) (s : String) :
    BaseProbs.plWeight atof (fun x y => x ^ y) s = (10 : ℝ) ^ (-(atof s) / 10) ∧
    0 < (10 : ℝ) ^ (-(atof s) / 10) := by
  constructor
  · simp only [BaseProbs.plWeight]
    norm_num
  · exact Real.rpow_pos_of_pos (by norm_num) _

/-- A vector supported on two distinct entries sums to the sum of the two. -/
theorem sum_two_entries {K : Type} [LinearOrderedField K] (f : Fin 4 → K) (p q : Fin 4)
    (hpq : p ≠ q) (h0 : ∀ i, i ≠ p → i ≠ q → f i = 0) :
    f 0 + f 1 + f 2 + f 3 = f p + f q := by
  fin_cases p <;> fin_cases q <;>
    first
    | exact absurd rfl hpq
    | (simp [h0] <;> ring)

/-- C7: over the reals, the PL constructor of `BaseProbs` yields a probability
distribution over the four bases that assigns the heterozygous weight by
haplotype. For three score strings read by `atof` as `s0, s1, s2`, weights
`w_k = 10^(-s_k/10)`, `S = w0 + w1 + w2`, distinct valid bases `ref`, `alt` with
codes `p`, `q` and `hap_id` in `{0, 1}`: `prob[p] = (w0 + (hap_id = 0 ? w1 : 0))/S`,
`prob[q] = (w2 + (hap_id = 0 ? 0 : w1))/S`, the two other entries are 0, and
the four entries sum to 1. -/
theorem ofPL_distribution (dna2int : Char → Int) (split : String → String → List String)
    (atof : String → ℝ) (refAllele altAllele : Char) (pl : String) (hap_id : Int)
    (s0 s1 s2 : String) (p q : Fin 4)
    (hpl : pl ≠ ".") (hsplit : split pl "," = [s0, s1, s2])
    (hp : dna2int refAllele = (p.val : Int)) (hq : dna2int altAllele = (q.val : Int))
    (hpq : p ≠ q) (hhap : hap_id = 0 ∨ hap_id = 1) :
    ∃ bp : BaseProbs ℝ,
      BaseProbs.ofPL dna2int split atof (fun x y => x ^ y) refAllele altAllele pl hap_id
        = .ok bp ∧
      bp.prob p = ((10 : ℝ) ^ (-(atof s0) / 10) +
          (if hap_id = 0 then (10 : ℝ) ^ (-(atof s1) / 10) else 0)) /
        ((10 : ℝ) ^ (-(atof s0) / 10) + (10 : ℝ) ^ (-(atof s1) / 10) +
          (10 : ℝ) ^ (-(atof s2) / 10)) ∧
      bp.prob q = ((10 : ℝ) ^ (-(atof s2) / 10) +
          (if hap_id = 0 then 0 else (10 : ℝ) ^ (-(atof s1) / 10))) /
        ((10 : ℝ) ^ (-(atof s0) / 10) + (10 : ℝ) ^ (-(atof s1) / 10) +
          (10 : ℝ) ^ (-(atof s2) / 10)) ∧
      (∀ i, i ≠ p → i ≠ q → bp.prob i = 0) ∧
      bp.prob 0 + bp.prob 1 + bp.prob 2 + bp.prob 3 = 1 := by
  obtain ⟨e0, h0⟩ := plWeight_real atof s0
  obtain ⟨e1, h1⟩ := plWeight_real atof s1
  obtain ⟨e2, h2⟩ := plWeight_real atof s2
  generalize (10 : ℝ) ^ (-(atof s0) / 10) = w0 at *
  generalize (10 : ℝ) ^ (-(atof s1) / 10) = w1 at *
  generalize (10 : ℝ) ^ (-(atof s2) / 10) = w2 at *
  have hS : w0 + w1 + w2 ≠ 0 := by positivity
  have hnn : dna2int refAllele ≥ 0 ∧ dna2int altAllele ≥ 0 := by omega
  have hz : (0.0 : ℝ) = 0 := by norm_num
  have hqp : q ≠ p := fun h => hpq h.symm
  rcases hhap with hh | hh
  · subst hh
    cases hres : BaseProbs.ofPL dna2int split atof (fun x y => x ^ y) refAllele altAllele
        pl 0 with
    | error e =>
      simp only [BaseProbs.ofPL, if_neg hpl, hsplit, if_pos hnn, e0, e1, e2, hz, zero_add,
        hp, hq, addAt_fin, if_true] at hres
      cases hres
    | ok bp =>
      simp only [BaseProbs.ofPL, if_neg hpl, hsplit, if_pos hnn, e0, e1, e2, hz, zero_add,
        hp, hq, addAt_fin, if_true] at hres
      injection hres with hres
      subst hres
      refine ⟨_, rfl, ?_, ?_, ?_, ?_⟩
      · simp [Function.update_noteq hpq]
        field_simp
      · simp [Function.update_noteq hqp]
      · intro i hip hiq
        simp [Function.update_noteq hip, Function.update_noteq hiq]
      · rw [sum_two_entries _ p q hpq
          (by intro i hip hiq; simp [Function.update_noteq hip, Function.update_noteq hiq])]
        simp [Function.update_noteq hpq, Function.update_noteq hqp]
        field_simp
  · subst hh
    cases hres : BaseProbs.ofPL dna2int split atof (fun x y => x ^ y) refAllele altAllele
        pl 1 with
    | error e =>
      simp only [BaseProbs.ofPL, if_neg hpl, hsplit, if_pos hnn, e0, e1, e2, hz, zero_add,
        hp, hq, addAt_fin, one_ne_zero, if_false] at hres
      cases hres
    | ok bp =>
      simp only [BaseProbs.ofPL, if_neg hpl, hsplit, if_pos hnn, e0, e1, e2, hz, zero_add,
        hp, hq, addAt_fin, one_ne_zero, if_false] at hres
      injection hres with hres
      subst hres
      refine ⟨_, rfl, ?_, ?_, ?_, ?_⟩
      · simp [Function.update_noteq hpq]
      · simp [Function.update_noteq hqp]
        field_simp
      · intro i hip hiq
        simp [Function.update_noteq hip, Function.update_noteq hiq]
      · rw [sum_two_entries _ p q hpq
          (by intro i hip hiq; simp [Function.update_noteq hip, Function.update_noteq hiq])]
        simp [Function.update_noteq hpq, Function.update_noteq hqp]
        field_simp
        ring

theorem ofPL_distribution_witness :
    ("0,10,20" : String) ≠ "." ∧
    dnaCode 'A' = ((0 : Fin 4).val : Int) ∧ dnaCode 'G' = ((2 : Fin 4).val : Int) ∧
    ∃ bp : BaseProbs ℝ,
      BaseProbs.ofPL dnaCode (fun _ _ => ["0", "10", "20"]) (fun _ => (3 : ℝ))
        (fun x y => x ^ y) 'A' 'G' "0,10,20" 1 = .ok bp ∧
      bp.prob 0 = ((10 : ℝ) ^ (-(3 : ℝ) / 10) +
          (if (1 : Int) = 0 then (10 : ℝ) ^ (-(3 : ℝ) / 10) else 0)) /
        ((10 : ℝ) ^ (-(3 : ℝ) / 10) + (10 : ℝ) ^ (-(3 : ℝ) / 10) +
          (10 : ℝ) ^ (-(3 : ℝ) / 10)) ∧
      bp.prob 2 = ((10 : ℝ) ^ (-(3 : ℝ) / 10) +
          (if (1 : Int) = 0 then 0 else (10 : ℝ) ^ (-(3 : ℝ) / 10))) /
        ((10 : ℝ) ^ (-(3 : ℝ) / 10) + (10 : ℝ) ^ (-(3 : ℝ) / 10) +
          (10 : ℝ) ^ (-(3 : ℝ) / 10)) ∧
      (∀ i, i ≠ 0 → i ≠ 2 → bp.prob i = 0) ∧
      bp.prob 0 + bp.prob 1 + bp.prob 2 + bp.prob 3 = 1 :=
  ⟨by decide, by decide, by decide,
    ofPL_distribution dnaCode (fun _ _ => ["0", "10", "20"]) (fun _ => (3 : ℝ)) 'A' 'G'
      "0,10,20" 1 "0" "10" "20" 0 2 (by decide) rfl (by decide) (by decide) (by decide)
      (Or.inr rfl)⟩

/-! ## Properties of `Sites::is_snp` -/

/-- Membership in the first `n` entries of a list, by index. -/
theorem mem_take_iff_idx {α : Type} (col : List α) (n : Nat) (x : α) :
    x ∈ col.take n ↔ ∃ t, t < n ∧ col[t]? = some x := by
  rw [List.mem_iff_getElem?]
  constructor
  · rintro ⟨t, ht⟩
    rw [List.getElem?_take] at ht
    by_cases h : t < n
    · exact ⟨t, h, by simpa [h] using ht⟩
    · simp [h] at ht
  · rintro ⟨t, h, ht⟩
    exact ⟨t, by rw [List.getElem?_take]; simpa [h] using ht⟩

/-- The first loop of `is_snp` stops at the first character that is not `N`,
or at `len` when there is none. -/
theorem skipN_spec (col : List Char) :
    ∀ (left j : Nat), j + left ≤ col.length →
      ∃ j2, Sites.skipN col left j = .ok j2 ∧ j ≤ j2 ∧ j2 ≤ j + left ∧
        (∀ t, j ≤ t → t < j2 → col[t]? = some 'N') ∧
        (j2 < j + left → ∃ c, col[j2]? = some c ∧ c ≠ 'N') := by
  intro left
  induction left with
  | zero =>
    intro j _
    exact ⟨j, rfl, le_refl _, le_refl _, fun t h1 h2 => by omega, fun h => by omega⟩
  | succ left ih =>
    intro j hj
    have hlt : j < col.length := by omega
    by_cases hc : col[j] ≠ 'N'
    · refine ⟨j, ?_, le_refl _, by omega, fun t h1 h2 => by omega, fun _ => ⟨col[j], ?_, hc⟩⟩
      · simp only [Sites.skipN, List.getElem?_eq_getElem hlt, if_pos hc]
      · exact List.getElem?_eq_getElem hlt
    · obtain ⟨j2, h1, h2, h3, h4, h5⟩ := ih (j + 1) (by omega)
      have hN : col[j] = 'N' := not_not.mp hc
      refine ⟨j2, ?_, by omega, by omega, ?_, fun h => h5 (by omega)⟩
      · simp only [Sites.skipN, List.getElem?_eq_getElem hlt, if_neg hc, h1]
      · intro t ht1 ht2
        rcases Nat.eq_or_lt_of_le ht1 with rfl | hlt2
        · rw [List.getElem?_eq_getElem hlt, hN]
        · exact h4 t (by omega) ht2

/-- The second loop of `is_snp` answers whether a later character among the
first `len` is neither `N` nor equal to the character at index `j`. -/
theorem differsFrom_spec (col : List Char) (j : Nat) (cj : Char) (hj : col[j]? = some cj) :
    ∀ (left k : Nat), k + left ≤ col.length →
      ∃ b, Sites.differsFrom col j left k = .ok b ∧
        (b = true ↔ ∃ t ck, k ≤ t ∧ t < k + left ∧ col[t]? = some ck ∧
          ck ≠ 'N' ∧ ck ≠ cj) := by
  intro left
  induction left with
  | zero =>
    intro k _
    refine ⟨false, rfl, ?_⟩
    constructor
    · intro h; cases h
    · rintro ⟨t, _, h1, h2, _⟩; omega
  | succ left ih =>
    intro k hk
    have hlt : k < col.length := by omega
    by_cases hc : col[k] ≠ 'N' ∧ col[k] ≠ cj
    · refine ⟨true, ?_, ?_⟩
      · simp only [Sites.differsFrom, List.getElem?_eq_getElem hlt, hj, if_pos hc]
      · constructor
        · intro _
          exact ⟨k, col[k], le_refl _, by omega, List.getElem?_eq_getElem hlt, hc.1, hc.2⟩
        · intro _; rfl
    · obtain ⟨b, h1, h2⟩ := ih (k + 1) (by omega)
      refine ⟨b, ?_, ?_⟩
      · simp only [Sites.differsFrom, List.getElem?_eq_getElem hlt, hj, if_neg hc, h1]
      · rw [h2]
        constructor
        · rintro ⟨t, ck, ht1, ht2, ht3, ht4⟩
          exact ⟨t, ck, by omega, by omega, ht3, ht4⟩
        · rintro ⟨t, ck, ht1, ht2, ht3, ht4⟩
          rcases Nat.eq_or_lt_of_le ht1 with rfl | hlt2
          · rw [List.getElem?_eq_getElem hlt] at ht3
            injection ht3 with ht3
            rw [ht3] at hc
            exact absurd ht4 hc
          · exact ⟨t, ck, by omega, by omega, ht3, ht4⟩

/-- On a column holding at least `len` characters, `is_snp` decides whether
two of the first `len` characters are called and differ. -/
theorem is_snp_col (col : List Char) (len : Nat) (hlen : len ≤ col.length) :
    ∃ b,
      (match Sites.skipN col len 0 with
        | .error e => (.error e : Except Fault Bool)
        | .ok j =>
          if (j : Int) = (len : Int) - 1 then .ok false
          else Sites.differsFrom col j (len - (j + 1)) (j + 1)) = .ok b ∧
      (b = true ↔ ∃ x ∈ col.take len, ∃ y ∈ col.take len, x ≠ 'N' ∧ y ≠ 'N' ∧ x ≠ y) := by
  obtain ⟨J, h1, _, h3, h4, h5⟩ := skipN_spec col len 0 (by omega)
  simp only [h1]
  -- every called character among the first `len` sits at index `J` or later
  have hcalled : ∀ t c, t < len → col[t]? = some c → c ≠ 'N' → J ≤ t := by
    intro t c _ htc hc
    by_contra hlt
    have := h4 t (Nat.zero_le _) (by omega)
    rw [this] at htc
    injection htc with htc
    exact hc htc.symm
  by_cases hlast : (J : Int) = (len : Int) - 1
  · refine ⟨false, by simp only [if_pos hlast], ?_⟩
    constructor
    · intro h; cases h
    · rintro ⟨x, hx, y, hy, hxN, hyN, hxy⟩
      obtain ⟨a, ha, hax⟩ := (mem_take_iff_idx col len x).mp hx
      obtain ⟨b, hb, hby⟩ := (mem_take_iff_idx col len y).mp hy
      have h6 := hcalled a x ha hax hxN
      have h7 := hcalled b y hb hby hyN
      have hab : a = b := by omega
      subst hab
      rw [hax] at hby
      injection hby with hby
      exact absurd hby hxy
  · simp only [if_neg hlast]
    by_cases hall : J = len
    · subst hall
      refine ⟨false, ?_, ?_⟩
      · have : J - (J + 1) = 0 := by omega
        rw [this]
        rfl
      · constructor
        · intro h; cases h
        · rintro ⟨x, hx, y, hy, hxN, hyN, hxy⟩
          obtain ⟨a, ha, hax⟩ := (mem_take_iff_idx col J x).mp hx
          have := hcalled a x ha hax hxN
          omega
    · have hJ : J < 0 + len := by omega
      obtain ⟨cj, hcj, hcjN⟩ := h5 hJ
      obtain ⟨b, hb1, hb2⟩ := differsFrom_spec col J cj hcj (len - (J + 1)) (J + 1)
        (by omega)
      refine ⟨b, hb1, ?_⟩
      rw [hb2]
      constructor
      · rintro ⟨t, ck, ht1, ht2, ht3, ht4, ht5⟩
        exact ⟨ck, (mem_take_iff_idx col len ck).mpr ⟨t, by omega, ht3⟩,
          cj, (mem_take_iff_idx col len cj).mpr ⟨J, by omega, hcj⟩, ht4, hcjN, ht5⟩
      · rintro ⟨x, hx, y, hy, hxN, hyN, hxy⟩
        obtain ⟨a, ha, hax⟩ := (mem_take_iff_idx col len x).mp hx
        obtain ⟨b2, hb, hby⟩ := (mem_take_iff_idx col len y).mp hy
        have h6 := hcalled a x ha hax hxN
        have h7 := hcalled b2 y hb hby hyN
        by_cases hxc : x = cj
        · have hyc : y ≠ cj := fun h => hxy (hxc.trans h.symm)
          have hne : b2 ≠ J := by
            intro h
            rw [h, hcj] at hby
            injection hby with hby
            exact hyc hby.symm
          exact ⟨b2, y, by omega, by omega, hby, hyN, hyc⟩
        · have hne : a ≠ J := by
            intro h
            rw [h, hcj] at hax
            injection hax with hax
            exact hxc hax.symm
          exact ⟨a, x, by omega, by omega, hax, hxN, hxc⟩

/-- C9 (as stated) fails: with one sequence name and the single column `AC`,
every column holds at least `get_num_seqs() = 1` characters and column 0
contains the two called, different characters `A` and `C`, but `is_snp(0)`
looks at the first character only and returns false. -/
theorem is_snp_counterexample :
    (∀ col ∈ sitesAC.cols,
      sitesAC.get_num_seqs ≤ col.length) ∧
    sitesAC.cols[0]? = some ['A', 'C'] ∧
    (∃ x ∈ ['A', 'C'], ∃ y ∈ ['A', 'C'], x ≠ 'N' ∧ y ≠ 'N' ∧ x ≠ y) ∧
    sitesAC.is_snp 0 = .ok false := by
  decide

/-- C9 (amended): `is_snp(i)` decides whether column `i` is polymorphic among
the called bases of its first `get_num_seqs()` characters. For every `Sites`
whose columns each hold at least `get_num_seqs()` characters and every `i`,
`is_snp(i)` is true exactly when `0 <= i < number of columns` and the first
`get_num_seqs()` characters of column `i` contain two characters, both
different from `N`, that differ from each other; it is false for every
out-of-range `i`. -/
theorem is_snp_iff {K : Type} (s : Sites K) (i : Int)
    (hcols : ∀ col ∈ s.cols, s.get_num_seqs ≤ col.length) :
    ∃ b, s.is_snp i = .ok b ∧
      (b = true ↔ 0 ≤ i ∧ i < s.cols.length ∧
        ∃ col, s.cols[i.toNat]? = some col ∧
          ∃ x ∈ col.take s.get_num_seqs, ∃ y ∈ col.take s.get_num_seqs,
            x ≠ 'N' ∧ y ≠ 'N' ∧ x ≠ y) := by
  by_cases hout : i < 0 ∨ i ≥ s.cols.length
  · refine ⟨false, by simp only [Sites.is_snp, if_pos hout], ?_⟩
    constructor
    · intro h; cases h
    · rintro ⟨h1, h2, _⟩; omega
  · have hi : i.toNat < s.cols.length := by omega
    have hget : s.cols[i.toNat]? = some s.cols[i.toNat] := List.getElem?_eq_getElem hi
    obtain ⟨b, hb1, hb2⟩ := is_snp_col s.cols[i.toNat] s.get_num_seqs
      (hcols _ (List.getElem_mem _))
    refine ⟨b, ?_, ?_⟩
    · simp only [Sites.is_snp, if_neg hout, hget]
      exact hb1
    · rw [hb2]
      constructor
      · intro h
        exact ⟨by omega, by omega, s.cols[i.toNat], hget, h⟩
      · rintro ⟨_, _, col, hcol, h⟩
        rw [hget] at hcol
        injection hcol with hcol
        rw [hcol]
        exact h

theorem is_snp_iff_witness :
    (∀ col ∈ sitesNGA.cols,
      sitesNGA.get_num_seqs
        ≤ col.length) ∧
    ∃ b, sitesNGA.is_snp 0
        = .ok b ∧
      (b = true ↔ (0 : Int) ≤ 0 ∧
        (0 : Int) < sitesNGA.cols.length ∧
        ∃ col, sitesNGA.cols[(0 : Int).toNat]? = some col ∧
          ∃ x ∈ col.take sitesNGA.get_num_seqs,
            ∃ y ∈ col.take sitesNGA.get_num_seqs,
              x ≠ 'N' ∧ y ≠ 'N' ∧ x ≠ y) :=
  ⟨by decide,
    is_snp_iff sitesNGA 0
      (by decide)⟩

/-! ## Properties of `Sequences::append` -/

/-- C10 (as stated) fails: appending a sequence together with base probabilities
to an alignment that holds a sequence but no base probabilities is not
rejected by the length check (`new_seqlen = -1`), yet it does not return
true: it stops in `assert(bp.size() == 0)`. -/
theorem append_counterexample :
    ¬ ((-1 : Int) > 0 ∧ seqsOne.seqs.length > 0 ∧ (-1 : Int) ≠ seqsOne.seqlen) ∧
    seqsOne.append "y" ['C'] [maskedProbs] (-1) = .error .assertion :=
  ⟨by decide, rfl⟩

/-- C10 (amended): `append` checks the sequence length and is atomic on
rejection. It returns false when `new_seqlen > 0`, at least one sequence is
already stored and `new_seqlen != seqlen`, and then the object is unchanged.
Otherwise, when the assertion on `bp` holds (no sequence is stored yet, or
`bp` is non-empty exactly when `base_probs` is), it returns true, `seqs` and
`names` each grow by exactly the given entry at the end, and `seqlen` becomes
`new_seqlen` only when `new_seqlen > 0` and the alignment was empty; when that
assertion fails the call aborts. -/
theorem append_spec {K : Type} (s : Sequences K) (name : String) (seq : List Char)
    (bp : List (BaseProbs K)) (new_seqlen : Int) :
    ((new_seqlen > 0 ∧ s.seqs.length > 0 ∧ new_seqlen ≠ s.seqlen) →
      s.append name seq bp new_seqlen = .ok (false, s)) ∧
    (¬ (new_seqlen > 0 ∧ s.seqs.length > 0 ∧ new_seqlen ≠ s.seqlen) →
      (s.seqs.length > 0 → (s.base_probs.length > 0 ↔ bp.length > 0)) →
      ∃ s2, s.append name seq bp new_seqlen = .ok (true, s2) ∧
        s2.seqs = s.seqs ++ [seq] ∧ s2.names = s.names ++ [name] ∧
        s2.seqlen = (if new_seqlen > 0 ∧ s.seqs.length = 0 then new_seqlen else s.seqlen)) ∧
    (¬ (new_seqlen > 0 ∧ s.seqs.length > 0 ∧ new_seqlen ≠ s.seqlen) →
      ¬ (s.seqs.length > 0 → (s.base_probs.length > 0 ↔ bp.length > 0)) →
      s.append name seq bp new_seqlen = .error .assertion) := by
  refine ⟨?_, ?_, ?_⟩
  · rintro ⟨h1, h2, h3⟩
    simp only [Sequences.append, if_pos h1, if_pos h2, if_pos h3]
  · intro hrej hbp
    by_cases h1 : new_seqlen > 0
    · by_cases h2 : s.seqs.length > 0
      · have h3 : ¬ new_seqlen ≠ s.seqlen := fun h => hrej ⟨h1, h2, h⟩
        have h4 : ¬ (new_seqlen > 0 ∧ s.seqs.length = 0) := by omega
        refine ⟨Sequences.pushSeq s name seq bp, ?_, rfl, rfl, by rw [if_neg h4]; rfl⟩
        simp only [Sequences.append, if_pos h1, if_pos h2, if_neg h3,
          Sequences.appendChecked]
        by_cases h5 : s.base_probs.length > 0
        · simp only [if_pos h5, if_pos ((hbp h2).mp h5)]
        · have h6 : bp.length = 0 := by
            have := (hbp h2).not.mp h5
            omega
          simp only [if_neg h5, if_pos h6]
      · have h4 : new_seqlen > 0 ∧ s.seqs.length = 0 := ⟨h1, by omega⟩
        refine ⟨Sequences.pushSeq { s with seqlen := new_seqlen } name seq bp, ?_, rfl, rfl,
          by rw [if_pos h4]; rfl⟩
        simp only [Sequences.append, if_pos h1, if_neg h2, Sequences.appendChecked]
    · have h4 : ¬ (new_seqlen > 0 ∧ s.seqs.length = 0) := fun h => h1 h.1
      refine ⟨Sequences.pushSeq s name seq bp, ?_, rfl, rfl, by rw [if_neg h4]; rfl⟩
      simp only [Sequences.append, if_neg h1, Sequences.appendChecked]
      by_cases h2 : s.seqs.length > 0
      · by_cases h5 : s.base_probs.length > 0
        · simp only [if_pos h2, if_pos h5, if_pos ((hbp h2).mp h5)]
        · have h6 : bp.length = 0 := by
            have := (hbp h2).not.mp h5
            omega
          simp only [if_pos h2, if_neg h5, if_pos h6]
      · simp only [if_neg h2]
  · intro hrej hbp
    have h2 : s.seqs.length > 0 := by
      by_contra h
      exact hbp (fun h3 => absurd h3 h)
    have hbp2 : ¬ (s.base_probs.length > 0 ↔ bp.length > 0) := fun h => hbp (fun _ => h)
    have hck : Sequences.appendChecked s name seq bp = .error .assertion := by
      simp only [Sequences.appendChecked, if_pos h2]
      by_cases h5 : s.base_probs.length > 0
      · have h6 : ¬ bp.length > 0 := fun h => hbp2 ⟨fun _ => h, fun _ => h5⟩
        simp only [if_pos h5, if_neg h6]
      · have h6 : ¬ bp.length = 0 := by
          intro h
          exact hbp2 ⟨fun h7 => absurd h7 h5, fun h7 => by omega⟩
        simp only [if_neg h5, if_neg h6]
    by_cases h1 : new_seqlen > 0
    · have h3 : ¬ new_seqlen ≠ s.seqlen := fun h => hrej ⟨h1, h2, h⟩
      simp only [Sequences.append, if_pos h1, if_pos h2, if_neg h3, hck]
    · simp only [Sequences.append, if_neg h1, hck]

theorem append_spec_witness :
    ((5 : Int) > 0 ∧ seqsOne.seqs.length > 0 ∧ (5 : Int) ≠ seqsOne.seqlen) ∧
    seqsOne.append "y" ['C'] [] 5 = .ok (false, seqsOne) ∧
    ¬ ((1 : Int) > 0 ∧ seqsOne.seqs.length > 0 ∧ (1 : Int) ≠ seqsOne.seqlen) ∧
    (seqsOne.seqs.length > 0 → (seqsOne.base_probs.length > 0 ↔ ([] : List (BaseProbs ℚ)).length > 0)) ∧
    (∃ s2, seqsOne.append "y" ['C'] [] 1 = .ok (true, s2) ∧
      s2.seqs = seqsOne.seqs ++ [['C']] ∧ s2.names = seqsOne.names ++ ["y"] ∧
      s2.seqlen = (if (1 : Int) > 0 ∧ seqsOne.seqs.length = 0 then 1 else seqsOne.seqlen)) ∧
    ¬ (seqsOne.seqs.length > 0 → (seqsOne.base_probs.length > 0 ↔ [maskedProbs].length > 0)) ∧
    seqsOne.append "y" ['C'] [maskedProbs] 1 = .error .assertion :=
  ⟨by decide, (append_spec seqsOne "y" ['C'] [] 5).1 (by decide),
    by decide, by decide,
    (append_spec seqsOne "y" ['C'] [] 1).2.1 (by decide) (by decide),
    by decide,
    (append_spec seqsOne "y" ['C'] [maskedProbs] 1).2.2 (by decide) (by decide)⟩

/-! ## Properties of the subset constructor of `Sequences` -/

/-- Appending without base probabilities leaves `base_probs` as it was. -/
theorem append_nil_base_probs {K : Type} (s s2 : Sequences K) (name : String)
    (seq : List Char) (new_seqlen : Int) (flag : Bool)
    (h : s.append name seq [] new_seqlen = .ok (flag, s2)) :
    s2.base_probs = s.base_probs := by
  have hck : ∀ (t : Sequences K), Sequences.appendChecked t name seq [] = .ok (flag, s2) →
      s2.base_probs = t.base_probs := by
    intro t ht
    unfold Sequences.appendChecked at ht
    split at ht
    · split at ht
      · split at ht
        · injection ht with ht
          injection ht with _ ht
          rw [← ht]
          rfl
        · cases ht
      · split at ht
        · injection ht with ht
          injection ht with _ ht
          rw [← ht]
          rfl
        · cases ht
    · injection ht with ht
      injection ht with _ ht
      rw [← ht]
      rfl
  unfold Sequences.append at h
  split at h <;> (try split at h) <;> (try split at h) <;>
    first
    | exact (hck _ h).trans rfl
    | (injection h with h
       injection h with _ h
       rw [h])

/-- The append loop of the subset constructor never creates base
probabilities. -/
theorem appendFrom_base_probs {K : Type} (src : Sequences K) (offset : Int) :
    ∀ (left i : Nat) (s s2 : Sequences K), s.base_probs = [] →
      Sequences.appendFrom src offset left i s = .ok s2 → s2.base_probs = [] := by
  intro left
  induction left with
  | zero =>
    intro i s s2 hs h
    simp only [Sequences.appendFrom] at h
    injection h with h
    rw [← h]
    exact hs
  | succ left ih =>
    intro i s s2 hs h
    simp only [Sequences.appendFrom] at h
    split at h
    · split at h
      · cases h
      · split at h
        · cases h
        · next flag s3 happ =>
            exact ih (i + 1) s3 s2 ((append_nil_base_probs _ _ _ _ _ _ happ).trans hs) h
    · cases h

/-- The subset constructor never copies base probabilities: whenever it
succeeds, the new alignment has an empty `base_probs`. -/
theorem ofSubset_base_probs_nil {K : Type} (src s2 : Sequences K)
    (nseqs seqlen offset : Int)
    (h : Sequences.ofSubset src nseqs seqlen offset = .ok s2) : s2.base_probs = [] := by
  simp only [Sequences.ofSubset] at h
  split at h
  · cases h
  · next s1 hs1 =>
      have h1 : s1.base_probs = [] := appendFrom_base_probs src offset _ _ _ _ rfl hs1
      split at h
      · cases h
      · next pairs _ =>
          split at h
          · split at h
            · cases h
            · next bps hbps =>
                injection h with h
                rw [← h]
                show bps = []
                rw [h1] at hbps
                cases hsrc : src.base_probs with
                | nil =>
                  rw [hsrc] at hbps
                  simp [Sequences.copyBaseProbsLoop] at hbps
                  exact hbps
                | cons b rest =>
                  rw [hsrc] at hbps
                  simp [Sequences.copyBaseProbsLoop] at hbps
                  exact hbps
          · injection h with h
            rw [← h]
            exact h1

/-- C11 (code defect): the subset constructor loses the per-base probabilities.
The source alignment `seqsProbs` holds one sequence with its `base_probs`; the
alignment built from its first sequence has that sequence and its name, but an
empty `base_probs`: the copy loop is bounded by the size of the new, still
empty, `base_probs` and never runs. -/
theorem ofSubset_loses_base_probs :
    seqsProbs.base_probs.length > 0 ∧ (1 : Int) ≤ seqsProbs.get_num_seqs ∧
    ∃ s2, Sequences.ofSubset seqsProbs 1 (-1) 0 = .ok s2 ∧
      s2.seqs = [['A']] ∧ s2.names = ["x"] ∧ s2.base_probs = [] :=
  ⟨by decide, by decide, _, rfl, rfl, rfl, rfl⟩

/-! ## Properties of `Sequences::get_pair` -/

/-- What `get_pair` does for each index: it returns `pairs[i]` inside the
vector and `-1` beyond `pairs.size()`, but at `i = pairs.size()` the test
`pairs.size() < i` lets the read `pairs[i]` through, one past the end. -/
theorem get_pair_cases {K : Type} (s : Sequences K) (i : Int) (hi : 0 ≤ i) :
    (i < s.pairs.length → ∃ v, s.pairs[i.toNat]? = some v ∧ s.get_pair i = .ok v) ∧
    (i = s.pairs.length → s.get_pair i = .error .outOfBounds) ∧
    (i > s.pairs.length → s.get_pair i = .ok (-1)) := by
  refine ⟨?_, ?_, ?_⟩
  · intro h
    have h1 : ¬ ((s.pairs.length : Int) < i) := by omega
    have h2 : ¬ i < 0 := by omega
    have h3 : i.toNat < s.pairs.length := by omega
    exact ⟨s.pairs[i.toNat], List.getElem?_eq_getElem h3,
      by simp [Sequences.get_pair, h1, vecGet, h2, h3]⟩
  · intro h
    have h1 : ¬ ((s.pairs.length : Int) < i) := by omega
    have h2 : ¬ i < 0 := by omega
    have h3 : s.pairs[i.toNat]? = none := List.getElem?_eq_none (by omega)
    simp [Sequences.get_pair, h1, vecGet, h2, h3]
  · intro h
    have h1 : (s.pairs.length : Int) < i := by omega
    simp [Sequences.get_pair, h1]

/-- C18 (code defect): `get_pair` reads outside the `pairs` vector at
`i = pairs.size()`. With no pairing set (`pairs` empty), `get_pair(0)` does not
return `-1`: the test `pairs.size() < i` is `0 < 0`, and `pairs[0]` is read
from the empty vector. -/
theorem get_pair_reads_past_end :
    seqsOne.pairs = [] ∧ (0 : Int) ≥ seqsOne.pairs.length ∧
    seqsOne.get_pair 0 = .error .outOfBounds ∧
    seqsPair.pairs.length = 2 ∧ seqsPair.get_pair 2 = .error .outOfBounds := by
  decide

/-! ## Block ends of `uncompress_blocks`, and the round trip with `compress_blocks` -/

/-- A read succeeds exactly on the cells that exist. -/
theorem cellGet_eq_ok {α : Type} (m : List (List α)) (r c : Int) (x : α) :
    cellGet m r c = .ok x ↔ 0 ≤ r ∧ 0 ≤ c ∧ cellAt m r.toNat c.toNat = some x := by
  unfold cellGet cellAt
  by_cases h : r < 0 ∨ c < 0
  · simp only [if_pos h]
    constructor
    · intro h2; cases h2
    · rintro ⟨h1, h2, _⟩; omega
  · simp only [if_neg h]
    have h1 : 0 ≤ r ∧ 0 ≤ c := by omega
    cases hrow : m[r.toNat]? with
    | none => simp
    | some row =>
      cases hx : row[c.toNat]? with
      | none => simp [h1, hx]
      | some y => simp [h1, hx]

/-- Reads of two vectors of rows agree when their cells agree. -/
theorem cellGet_congr {α : Type} (m1 m2 : List (List α)) (r c : Int)
    (h : cellAt m1 r.toNat c.toNat = cellAt m2 r.toNat c.toNat) :
    cellGet m1 r c = cellGet m2 r c := by
  unfold cellGet
  unfold cellAt at h
  by_cases hneg : r < 0 ∨ c < 0
  · simp only [if_pos hneg]
  · simp only [if_neg hneg]
    cases h1 : m1[r.toNat]? with
    | none =>
      cases h2 : m2[r.toNat]? with
      | none => rfl
      | some row2 =>
        simp only [h1, h2] at h
        simp only [← h]
    | some row1 =>
      cases h2 : m2[r.toNat]? with
      | none =>
        simp only [h1, h2] at h
        simp only [h]
      | some row2 =>
        simp only [h1, h2] at h
        simp only [h]

/-- The cells of a vector of rows after one assignment. -/
theorem cellAt_set {α : Type} (m : List (List α)) (R C : Nat) (row : List α) (x : α)
    (hrow : m[R]? = some row) (hC : C < row.length) (r c : Nat) :
    cellAt (m.set R (row.set C x)) r c =
      if r = R ∧ c = C then some x else cellAt m r c := by
  have hR : R < m.length := (List.getElem?_eq_some.mp hrow).1
  unfold cellAt
  by_cases hr : r = R
  · subst hr
    rw [List.getElem?_set_self hR, hrow]
    by_cases hc : c = C
    · subst hc
      simp [List.getElem?_set_self hC]
    · have hc2 : C ≠ c := fun h => hc h.symm
      simp [hc, List.getElem?_set_ne hc2]
  · have hr2 : R ≠ r := fun h => hr h.symm
    rw [List.getElem?_set_ne hr2]
    simp [hr]

/-- An assignment to a cell keeps the shape of the vector of rows. -/
theorem shape_set {α : Type} (m : List (List α)) (R C : Nat) (row : List α) (x : α)
    (hrow : m[R]? = some row) :
    (m.set R (row.set C x)).map List.length = m.map List.length := by
  apply List.ext_getElem?
  intro n
  rw [List.map_set, List.getElem?_set]
  by_cases hn : R = n
  · subst hn
    obtain ⟨hR, hrow2⟩ := List.getElem?_eq_some.mp hrow
    simp [hR, hrow2]
  · simp [hn]

/-- Two vectors of rows with the same shape and the same cells are equal. -/
theorem cells_ext {α : Type} (m1 m2 : List (List α))
    (hshape : m1.map List.length = m2.map List.length)
    (hcells : ∀ r c, cellAt m1 r c = cellAt m2 r c) : m1 = m2 := by
  apply List.ext_getElem?
  intro r
  have hr : (m1.map List.length)[r]? = (m2.map List.length)[r]? := by rw [hshape]
  rw [List.getElem?_map, List.getElem?_map] at hr
  cases h1 : m1[r]? with
  | none =>
    cases h2 : m2[r]? with
    | none => rfl
    | some row2 => simp [h1, h2] at hr
  | some row1 =>
    cases h2 : m2[r]? with
    | none => simp [h1, h2] at hr
    | some row2 =>
      congr 1
      apply List.ext_getElem?
      intro c
      have := hcells r c
      simpa [cellAt, h1, h2] using this

/-- A cell that exists lies in a row that exists. -/
theorem cellAt_eq_some {α : Type} {m : List (List α)} {r c : Nat} {x : α}
    (h : cellAt m r c = some x) :
    ∃ row, m[r]? = some row ∧ c < row.length ∧ row[c]? = some x := by
  unfold cellAt at h
  cases hrow : m[r]? with
  | none => simp [hrow] at h
  | some row =>
    simp only [hrow] at h
    exact ⟨row, rfl, (List.getElem?_eq_some.mp h).1, h⟩

/-- An assignment to a cell that exists succeeds. -/
theorem cellSet_ok {α : Type} (m : List (List α)) (r c : Int) (x : α) (row : List α)
    (hr : 0 ≤ r) (hc : 0 ≤ c) (hrow : m[r.toNat]? = some row) (hlen : c.toNat < row.length) :
    cellSet m r c x = .ok (m.set r.toNat (row.set c.toNat x)) := by
  have hneg : ¬ (r < 0 ∨ c < 0) := by omega
  simp [cellSet, hneg, hrow, hlen]

/-- The exchange of two cells of one column: it succeeds when both cells
exist, keeps the shape, puts each of the two contents in the place of the
other and leaves every other cell as it was. -/
theorem swapCells_spec {α : Type} (m : List (List α)) (coord seq1 seq2 : Int) (x1 x2 : α)
    (h1 : cellGet m seq1 coord = .ok x1) (h2 : cellGet m seq2 coord = .ok x2) :
    ∃ M, swapCells m coord seq1 seq2 = .ok M ∧
      M.map List.length = m.map List.length ∧
      ∀ r c, cellAt M r c =
        if r = seq2.toNat ∧ c = coord.toNat then some x1
        else if r = seq1.toNat ∧ c = coord.toNat then some x2
        else cellAt m r c := by
  obtain ⟨hr1, hc, ha1⟩ := (cellGet_eq_ok m seq1 coord x1).mp h1
  obtain ⟨hr2, _, ha2⟩ := (cellGet_eq_ok m seq2 coord x2).mp h2
  obtain ⟨row1, hrow1, hlen1, _⟩ := cellAt_eq_some ha1
  have hset1 := cellSet_ok m seq1 coord x2 row1 hr1 hc hrow1 hlen1
  have hcells1 := cellAt_set m seq1.toNat coord.toNat row1 x2 hrow1 hlen1
  have hshape1 := shape_set m seq1.toNat coord.toNat row1 x2 hrow1
  have hb : ∃ y, cellAt (m.set seq1.toNat (row1.set coord.toNat x2)) seq2.toNat coord.toNat
      = some y := by
    rw [hcells1]
    by_cases h : seq2.toNat = seq1.toNat ∧ coord.toNat = coord.toNat
    · exact ⟨x2, by rw [if_pos h]⟩
    · exact ⟨x2, by rw [if_neg h]; exact ha2⟩
  obtain ⟨y, hy⟩ := hb
  obtain ⟨row2, hrow2, hlen2, _⟩ := cellAt_eq_some hy
  have hset2 := cellSet_ok (m.set seq1.toNat (row1.set coord.toNat x2)) seq2 coord x1 row2
    hr2 hc hrow2 hlen2
  refine ⟨(m.set seq1.toNat (row1.set coord.toNat x2)).set seq2.toNat
    (row2.set coord.toNat x1), ?_, ?_, ?_⟩
  · simp only [swapCells, h1, h2, hset1]
    exact hset2
  · rw [shape_set _ seq2.toNat coord.toNat row2 x1 hrow2, hshape1]
  · intro r c
    rw [cellAt_set _ seq2.toNat coord.toNat row2 x1 hrow2 hlen2, hcells1]

/-- Exchanging the same two cells again restores the vector of rows. -/
theorem swapCells_twice {α : Type} (m : List (List α)) (coord seq1 seq2 : Int) (x1 x2 : α)
    (h1 : cellGet m seq1 coord = .ok x1) (h2 : cellGet m seq2 coord = .ok x2) :
    ∃ M, swapCells m coord seq1 seq2 = .ok M ∧ swapCells M coord seq1 seq2 = .ok m := by
  obtain ⟨hr1, hc, ha1⟩ := (cellGet_eq_ok m seq1 coord x1).mp h1
  obtain ⟨hr2, _, ha2⟩ := (cellGet_eq_ok m seq2 coord x2).mp h2
  obtain ⟨M, hM, hshape, hcells⟩ := swapCells_spec m coord seq1 seq2 x1 x2 h1 h2
  have g2 : cellGet M seq2 coord = .ok x1 := by
    rw [cellGet_eq_ok]
    refine ⟨hr2, hc, ?_⟩
    rw [hcells, if_pos ⟨rfl, rfl⟩]
  have g1 : cellGet M seq1 coord = .ok (if seq1.toNat = seq2.toNat then x1 else x2) := by
    rw [cellGet_eq_ok]
    refine ⟨hr1, hc, ?_⟩
    rw [hcells]
    by_cases h : seq1.toNat = seq2.toNat
    · rw [if_pos ⟨h, rfl⟩, if_pos h]
    · have h3 : ¬ (seq1.toNat = seq2.toNat ∧ coord.toNat = coord.toNat) := fun h4 => h h4.1
      rw [if_neg h3, if_pos ⟨rfl, rfl⟩, if_neg h]
  obtain ⟨M2, hM2, hshape2, hcells2⟩ := swapCells_spec M coord seq1 seq2 _ _ g1 g2
  refine ⟨M, hM, ?_⟩
  rw [hM2]
  congr 1
  apply cells_ext
  · rw [hshape2, hshape]
  · intro r c
    rw [hcells2]
    by_cases hA : r = seq2.toNat ∧ c = coord.toNat
    · rw [if_pos hA]
      obtain ⟨hr, hcc⟩ := hA
      subst hr hcc
      by_cases h : seq1.toNat = seq2.toNat
      · rw [if_pos h, ← h]
        exact ha1.symm
      · rw [if_neg h]
        exact ha2.symm
    · rw [if_neg hA]
      by_cases hB : r = seq1.toNat ∧ c = coord.toNat
      · rw [if_pos hB]
        obtain ⟨hr, hcc⟩ := hB
        subst hr hcc
        exact ha1.symm
      · rw [if_neg hB, hcells, if_neg hA, if_neg hB]

/-- The exchange of two cells, read back through `int` indices: the two
contents have changed places, every other read gives what it gave before, the
number of rows is the same, and a second exchange restores the rows. -/
theorem swapCells_full {α : Type} (m : List (List α)) (coord seq1 seq2 : Int) (x1 x2 : α)
    (h1 : cellGet m seq1 coord = .ok x1) (h2 : cellGet m seq2 coord = .ok x2) :
    ∃ M, swapCells m coord seq1 seq2 = .ok M ∧
      cellGet M seq1 coord = .ok x2 ∧ cellGet M seq2 coord = .ok x1 ∧
      (∀ r c, ¬ (r = seq1 ∧ c = coord) → ¬ (r = seq2 ∧ c = coord) →
        cellGet M r c = cellGet m r c) ∧
      M.length = m.length ∧ swapCells M coord seq1 seq2 = .ok m := by
  obtain ⟨hr1, hc, ha1⟩ := (cellGet_eq_ok m seq1 coord x1).mp h1
  obtain ⟨hr2, _, ha2⟩ := (cellGet_eq_ok m seq2 coord x2).mp h2
  obtain ⟨M, hM, hshape, hcells⟩ := swapCells_spec m coord seq1 seq2 x1 x2 h1 h2
  obtain ⟨M2, hM2, hback⟩ := swapCells_twice m coord seq1 seq2 x1 x2 h1 h2
  have hMM : M2 = M := by
    have h7 := hM2.symm.trans hM
    simpa using h7
  subst hMM
  refine ⟨M2, hM, ?_, ?_, ?_, ?_, hback⟩
  · rw [cellGet_eq_ok]
    refine ⟨hr1, hc, ?_⟩
    rw [hcells]
    by_cases h : seq1.toNat = seq2.toNat
    · rw [if_pos ⟨h, rfl⟩]
      rw [h] at ha1
      rw [← ha1, ha2]
    · have h3 : ¬ (seq1.toNat = seq2.toNat ∧ coord.toNat = coord.toNat) := fun h4 => h h4.1
      rw [if_neg h3, if_pos ⟨rfl, rfl⟩]
  · rw [cellGet_eq_ok]
    refine ⟨hr2, hc, ?_⟩
    rw [hcells, if_pos ⟨rfl, rfl⟩]
  · intro r c hn1 hn2
    by_cases hneg : r < 0 ∨ c < 0
    · simp only [cellGet, if_pos hneg]
    · apply cellGet_congr
      rw [hcells]
      have g2 : ¬ (r.toNat = seq2.toNat ∧ c.toNat = coord.toNat) := by
        intro h
        apply hn2
        omega
      have g1 : ¬ (r.toNat = seq1.toNat ∧ c.toNat = coord.toNat) := by
        intro h
        apply hn1
        omega
      rw [if_neg g2, if_neg g1]
  · have := congrArg List.length hshape
    simpa using this

/-- C19: `switch_alleles` is a swap confined to one column of two rows. For
in-range `coord`, `seq1` and `seq2` (the two cells exist in `seqs` and, when
`base_probs` is non-empty, in `base_probs`), afterwards `seqs[seq1][coord]` and
`seqs[seq2][coord]` are exchanged, so are the matching `base_probs` entries
when `base_probs` is non-empty, every other character and probability is
unchanged, and applying it again with the same arguments restores the
original alignment. -/
theorem switch_alleles_swap {K : Type} (s : Sequences K) (coord seq1 seq2 : Int)
    (c1 c2 : Char)
    (h1 : cellGet s.seqs seq1 coord = .ok c1) (h2 : cellGet s.seqs seq2 coord = .ok c2)
    (hbp : s.base_probs.length > 0 → ∃ p1 p2,
      cellGet s.base_probs seq1 coord = .ok p1 ∧ cellGet s.base_probs seq2 coord = .ok p2) :
    ∃ s2, s.switch_alleles coord seq1 seq2 = .ok s2 ∧
      cellGet s2.seqs seq1 coord = .ok c2 ∧ cellGet s2.seqs seq2 coord = .ok c1 ∧
      (∀ r c, ¬ (r = seq1 ∧ c = coord) → ¬ (r = seq2 ∧ c = coord) →
        cellGet s2.seqs r c = cellGet s.seqs r c) ∧
      (∀ p1 p2, s.base_probs.length > 0 →
        cellGet s.base_probs seq1 coord = .ok p1 → cellGet s.base_probs seq2 coord = .ok p2 →
        cellGet s2.base_probs seq1 coord = .ok p2 ∧
        cellGet s2.base_probs seq2 coord = .ok p1) ∧
      (∀ r c, ¬ (r = seq1 ∧ c = coord) → ¬ (r = seq2 ∧ c = coord) →
        cellGet s2.base_probs r c = cellGet s.base_probs r c) ∧
      s2.switch_alleles coord seq1 seq2 = .ok s := by
  obtain ⟨M, hM, hx1, hx2, hframe, hlenM, hback⟩ :=
    swapCells_full s.seqs coord seq1 seq2 c1 c2 h1 h2
  by_cases hnon : s.base_probs.length > 0
  · obtain ⟨p1, p2, hp1, hp2⟩ := hbp hnon
    obtain ⟨B, hB, hy1, hy2, hframeB, hlenB, hbackB⟩ :=
      swapCells_full s.base_probs coord seq1 seq2 p1 p2 hp1 hp2
    have hnonB : B.length > 0 := by rw [hlenB]; exact hnon
    refine ⟨{ s with seqs := M, base_probs := B }, ?_, hx1, hx2, hframe, ?_, hframeB, ?_⟩
    · simp only [Sequences.switch_alleles, hM, if_pos hnon, hB]
    · intro q1 q2 _ hq1 hq2
      have e1 : q1 = p1 := by
        have h7 := hq1.symm.trans hp1
        simpa using h7
      have e2 : q2 = p2 := by
        have h7 := hq2.symm.trans hp2
        simpa using h7
      subst e1 e2
      exact ⟨hy1, hy2⟩
    · simp only [Sequences.switch_alleles, hback, if_pos hnonB, hbackB]
  · refine ⟨{ s with seqs := M }, ?_, hx1, hx2, hframe, ?_, fun _ _ _ _ => rfl, ?_⟩
    · simp only [Sequences.switch_alleles, hM, if_neg hnon]
    · intro q1 q2 h
      exact absurd h hnon
    · simp only [Sequences.switch_alleles, hback, if_neg hnon]

theorem switch_alleles_swap_witness :
    cellGet seqsPairProbs.seqs 0 1 = .ok 'C' ∧ cellGet seqsPairProbs.seqs 1 1 = .ok 'T' ∧
    cellGet seqsPairProbs.base_probs 0 1 = .ok (BaseProbs.ofChar dnaCode 'C') ∧
    cellGet seqsPairProbs.base_probs 1 1 = .ok maskedProbs ∧
    ∃ s2, seqsPairProbs.switch_alleles 1 0 1 = .ok s2 ∧
      cellGet s2.seqs 0 1 = .ok 'T' ∧ cellGet s2.seqs 1 1 = .ok 'C' ∧
      (∀ r c, ¬ (r = 0 ∧ c = 1) → ¬ (r = 1 ∧ c = 1) →
        cellGet s2.seqs r c = cellGet seqsPairProbs.seqs r c) ∧
      (∀ p1 p2, seqsPairProbs.base_probs.length > 0 →
        cellGet seqsPairProbs.base_probs 0 1 = .ok p1 →
        cellGet seqsPairProbs.base_probs 1 1 = .ok p2 →
        cellGet s2.base_probs 0 1 = .ok p2 ∧ cellGet s2.base_probs 1 1 = .ok p1) ∧
      (∀ r c, ¬ (r = 0 ∧ c = 1) → ¬ (r = 1 ∧ c = 1) →
        cellGet s2.base_probs r c = cellGet seqsPairProbs.base_probs r c) ∧
      s2.switch_alleles 1 0 1 = .ok seqsPairProbs :=
  ⟨by decide, by decide, rfl, rfl,
    switch_alleles_swap seqsPairProbs 1 0 1 'C' 'T' (by decide) (by decide)
      (fun _ => ⟨_, _, rfl, rfl⟩)⟩


/-! ## Properties of `RemovalPaths` -/

/-- A table made by `new_matrix` has `nrows` rows of `ncols` cells. -/
theorem new_matrix_shape {T : Type} (fresh : Nat → Nat → T) (nrows ncols : Int)
    (h1 : 0 ≤ nrows) (h2 : 0 ≤ ncols) :
    ((new_matrix fresh nrows ncols).length : Int) = nrows ∧
    ∀ row ∈ new_matrix fresh nrows ncols, (row.length : Int) = ncols := by
  constructor
  · simp only [new_matrix, List.length_map, List.length_range]
    omega
  · intro row hrow
    simp only [new_matrix, List.mem_map] at hrow
    obtain ⟨i, _, rfl⟩ := hrow
    simp only [List.length_map, List.length_range]
    omega

/-- C15: `RemovalPaths` allocates a dense `ntrees x nnodes` table. For
`nnodes >= 0` and `ntrees >= 0` and whatever table was held before, after
`alloc(nnodes, ntrees)` the fields `nnodes` and `ntrees` equal the arguments
and `counts` and `backptrs` each have exactly `ntrees` rows of `nnodes` cells,
each `backptrs` cell holding two node slots; `clear()` leaves both tables
empty and calling it twice equals calling it once. -/
theorem alloc_clear_spec {K : Type} (rp : RemovalPaths K) (freshCounts : Nat → Nat → K)
    (freshPtrs : Nat → Nat → next_row) (nnodes ntrees : Int)
    (h1 : 0 ≤ nnodes) (h2 : 0 ≤ ntrees) :
    (rp.alloc freshCounts freshPtrs nnodes ntrees).nnodes = nnodes ∧
    (rp.alloc freshCounts freshPtrs nnodes ntrees).ntrees = ntrees ∧
    (∃ counts backptrs,
      (rp.alloc freshCounts freshPtrs nnodes ntrees).counts = some counts ∧
      (rp.alloc freshCounts freshPtrs nnodes ntrees).backptrs = some backptrs ∧
      (counts.length : Int) = ntrees ∧ (∀ row ∈ counts, (row.length : Int) = nnodes) ∧
      (backptrs.length : Int) = ntrees ∧
      (∀ row ∈ backptrs, (row.length : Int) = nnodes ∧
        ∀ cell ∈ row, (List.ofFn cell).length = 2)) ∧
    rp.clear.counts = none ∧ rp.clear.backptrs = none ∧ rp.clear.clear = rp.clear := by
  obtain ⟨c1, c2⟩ := new_matrix_shape freshCounts ntrees nnodes h2 h1
  obtain ⟨b1, b2⟩ := new_matrix_shape freshPtrs ntrees nnodes h2 h1
  refine ⟨rfl, rfl, ⟨_, _, rfl, rfl, c1, c2, b1, ?_⟩, ?_, ?_, ?_⟩
  · intro row hrow
    exact ⟨b2 row hrow, fun cell _ => List.length_ofFn cell⟩
  · simp only [RemovalPaths.clear]
    cases rp.counts <;> rfl
  · simp only [RemovalPaths.clear]
    cases rp.backptrs <;> rfl
  · simp only [RemovalPaths.clear]
    cases rp.counts <;> cases rp.backptrs <;> rfl

theorem alloc_clear_spec_witness :
    (0 : Int) ≤ 3 ∧ (0 : Int) ≤ 2 ∧
    ((RemovalPaths.mk 7 1 (some [[(5 : ℚ)]]) none).alloc (fun _ _ => 0)
      (fun _ _ _ => -1) 3 2).nnodes = 3 ∧
    ((RemovalPaths.mk 7 1 (some [[(5 : ℚ)]]) none).alloc (fun _ _ => 0)
      (fun _ _ _ => -1) 3 2).ntrees = 2 ∧
    (∃ counts backptrs,
      ((RemovalPaths.mk 7 1 (some [[(5 : ℚ)]]) none).alloc (fun _ _ => 0)
        (fun _ _ _ => -1) 3 2).counts = some counts ∧
      ((RemovalPaths.mk 7 1 (some [[(5 : ℚ)]]) none).alloc (fun _ _ => 0)
        (fun _ _ _ => -1) 3 2).backptrs = some backptrs ∧
      (counts.length : Int) = 2 ∧ (∀ row ∈ counts, (row.length : Int) = 3) ∧
      (backptrs.length : Int) = 2 ∧
      (∀ row ∈ backptrs, (row.length : Int) = 3 ∧
        ∀ cell ∈ row, (List.ofFn cell).length = 2)) ∧
    (RemovalPaths.mk 7 1 (some [[(5 : ℚ)]]) none).clear.counts = none ∧
    (RemovalPaths.mk 7 1 (some [[(5 : ℚ)]]) none).clear.backptrs = none ∧
    (RemovalPaths.mk 7 1 (some [[(5 : ℚ)]]) none).clear.clear =
      (RemovalPaths.mk 7 1 (some [[(5 : ℚ)]]) none).clear :=
  ⟨by decide, by decide,
    alloc_clear_spec (RemovalPaths.mk 7 1 (some [[(5 : ℚ)]]) none) (fun _ _ => 0)
      (fun _ _ _ => -1) 3 2 (by decide) (by decide)⟩

end Argweaver
